import Mathlib

/-!
Verification development for the tech-trends collection-and-scoring pipeline
(`backend/src/trends/graph.py`, `scoring.py`, `config.py`, `schemas.py`).

Shallow embedding conventions:
* Python `str` is `String`; normalization uses the ASCII fragment of
  `isalnum`/`isspace`/`lower`, which covers every concrete input considered.
* Python `int` is `Int`; list lengths are compared against `Int` bounds with
  explicit coercions.
* Python floats are modelled as real numbers; `round(x, 4)` is modelled as
  `round (x * 10000) / 10000` over `ℝ` (Mathlib `round` is half-up whereas
  Python rounds half-to-even, but no statement below depends on tie behavior,
  and the scores involved are irrational before rounding). Where a scored
  value is carried through list-processing code (`TrendItem.trending_score`)
  it is modelled as `ℚ`: every score the pipeline produces is an integer
  multiple of 1/10000, so rationals are exact for that code, and they keep
  the list processing kernel-computable.
* Python `datetime` values are modelled as epoch seconds;
  `timedelta.total_seconds() / 86400` becomes division by `86400`.
* Python dicts that are iterated in insertion order are modelled as
  association lists; dicts used only for keyed lookup are modelled as
  functions with a default value (`[]` or `0`), matching `dict.get`.
* The external collaborators (feed fetching, LLM screening, reference
  lookups, persistence) are abstracted as oracle function parameters; the
  code under verification only threads their results through the state.
-/

/-- Embeds Python `str.strip()` on a character list: drop whitespace from
both ends. -/
def pyStrip (s : List Char) : List Char :=
  ((s.dropWhile Char.isWhitespace).reverse.dropWhile Char.isWhitespace).reverse

/-- Embeds `_normalize_title` (graph.py:41): lowercase, keep alphanumeric and
whitespace characters, strip surrounding whitespace. -/
def _normalize_title (title : String) : String :=
  String.mk (pyStrip ((title.data.map Char.toLower).filter
    (fun ch => ch.isAlphanum || ch.isWhitespace)))

/-- Embeds `_normalize_url` (graph.py:45): empty stays empty; otherwise strip
and lowercase, drop the fragment (everything from the first `#`, as
`urldefrag` does), and drop one trailing slash. -/
def _normalize_url (url : String) : String :=
  if url = "" then ""
  else
    let trimmed := (pyStrip url.data).map Char.toLower
    let nofrag := trimmed.takeWhile (fun ch => ch ≠ '#')
    String.mk (if nofrag.getLast? = some '/' then nofrag.dropLast else nofrag)

/-- Embeds `SourceItem` (schemas.py): `published_at` is an optional epoch
second count. -/
structure SourceItem where
  title : String
  url : String
  published_at : Option Int := none
  source : String
  summary : Option String := none
deriving DecidableEq, Repr

/-- Embeds the `TrendItem` shape as constructed by `evaluate_sources`
(graph.py:377-391): the fields passed there are the ones modelled.
`trending_score` is the 4-decimal rational produced by the scorer. -/
structure TrendItem where
  id : String
  category : String
  title : String
  publication : String
  url : String
  published_at : Option Int := none
  source : String
  summary : Option String := none
  reference_count : Int := 0
  trending_score : ℚ
  source_references : List String := []
deriving DecidableEq, Repr

/-- Embeds `GraphState` (schemas.py): the mutable pipeline context.
`title_references` is an insertion-ordered dict, hence an association list. -/
structure GraphState where
  run_date : Option String := none
  lookback_days : Int := 3
  target_trend_count : Int := 20
  max_lookback_days : Int := 14
  lookback_history : List Int := []
  raw_items : List SourceItem := []
  assessed_items : List TrendItem := []
  title_references : List (String × List String) := []
  errors : List String := []
deriving DecidableEq, Repr

/-! ## Scorer (`scoring.py`) -/

/-- Embeds Python `round(x, 4)` over the real model of floats. -/
noncomputable def round4 (x : ℝ) : ℝ := (round (x * 10000) : ℤ) / 10000

/-- Embeds `compute_trending_score` (scoring.py:9-19). The module constant
`TREND_SCORE_HALF_LIFE_DAYS` is a parameter (config.py does not define it),
`now` stands for `datetime.utcnow()` in epoch seconds, and `published_at` is
the optional publication time in epoch seconds. -/
noncomputable def compute_trending_score
    (TREND_SCORE_HALF_LIFE_DAYS : ℝ) (now : ℝ)
    (reference_count : Int) (published_at : Option ℝ) : ℝ :=
  let references : Int := max reference_count 0
  let days_since : ℝ :=
    match published_at with
    | some p => max ((now - p) / 86400) 0
    | none => 0
  let half_life : ℝ := max TREND_SCORE_HALF_LIFE_DAYS 0.1
  round4 (Real.log (1 + (references : ℝ)) * Real.exp (-days_since / half_life))

/-- Modelled from the spec (section 4.4): the score formula exactly as the
specification words it, `ln(1 + max(reference_count, 0)) *
exp(-elapsed_days / half_life)` with `elapsed_days = max((now - published_at)
in days, 0)` and a missing `published_at` treated as `elapsed_days = 0`.
Used as the refinement target for the scorer claims; it carries no final
rounding, which is exactly where code and spec differ. -/
noncomputable def spec_trending_score
    (half_life_days : ℝ) (now : ℝ)
    (reference_count : Int) (published_at : Option ℝ) : ℝ :=
  let elapsed_days : ℝ :=
    match published_at with
    | some p => max ((now - p) / 86400) 0
    | none => 0
  Real.log (1 + ((max reference_count 0 : Int) : ℝ)) *
    Real.exp (-elapsed_days / max half_life_days 0.1)

/-! ## Fair Selector (`_select_items_round_robin`, graph.py:66-143)

The Python function mutates `source_indices`, `selected_counts`, `selected`,
`unique_sources` and the session-wide `seen_titles`/`seen_urls`; all of that
state is gathered in `SelState`.  The per-source cursor `source_indices[key]`
into the fixed list `items_by_source[key]` is represented by storing the
not-yet-visited suffix `pending key` (advancing the index is consuming the
head).  `selected` additionally records, as ghost data, the source key each
item was pulled from, so that per-source attribution is statable; the Python
return value is `selected.map Prod.snd`. -/

/-- Parameters of one `_select_items_round_robin` call that stay fixed during
its loops. -/
structure SelCfg where
  available_sources : List String
  max_items : Int
  target_unique : Int
  cap_eff : Int
deriving Repr

/-- Mutable state of `_select_items_round_robin`. -/
structure SelState where
  pending : String → List SourceItem
  selected_counts : String → Nat
  selected : List (String × SourceItem)
  unique_sources : List String
  seen_titles : List String
  seen_urls : List String

/-- Embeds the `while idx < len(items)` body of `next_item` (graph.py:90-106)
on the unvisited suffix: skip items whose nonempty normalized title or URL
key is already seen, otherwise return the item and record its keys. -/
def next_item_go : List SourceItem → List String → List String →
    Option SourceItem × List SourceItem × List String × List String
  | [], seenT, seenU => (none, [], seenT, seenU)
  | item :: rest, seenT, seenU =>
    let title_key := _normalize_title item.title
    let url_key := _normalize_url item.url
    if (title_key ≠ "" ∧ title_key ∈ seenT) ∨ (url_key ≠ "" ∧ url_key ∈ seenU) then
      next_item_go rest seenT seenU
    else
      (some item, rest,
        (if title_key ≠ "" then title_key :: seenT else seenT),
        (if url_key ≠ "" then url_key :: seenU else seenU))

/-- Embeds `next_item(source_key)` (graph.py:90-106) including its effect on
the per-source cursor and the seen sets. -/
def next_item (key : String) (st : SelState) : Option SourceItem × SelState :=
  match next_item_go (st.pending key) st.seen_titles st.seen_urls with
  | (res, rest, seenT, seenU) =>
    (res,
      { st with
        pending := fun k => if k = key then rest else st.pending k,
        seen_titles := seenT,
        seen_urls := seenU })

/-- Embeds one `for source_key in available_sources` sweep of the diversity
phase (graph.py:110-123): break once the unique-source target or the item
budget is reached, skip represented or capped sources, otherwise pull the
next item and mark the source represented. -/
def diversity_sweep (cfg : SelCfg) : List String → SelState → SelState
  | [], st => st
  | key :: rest, st =>
    if cfg.target_unique ≤ (st.unique_sources.length : Int) ∨
        cfg.max_items ≤ (st.selected.length : Int) then st
    else if key ∈ st.unique_sources then diversity_sweep cfg rest st
    else if cfg.cap_eff ≤ (st.selected_counts key : Int) then diversity_sweep cfg rest st
    else
      match next_item key st with
      | (none, st1) => diversity_sweep cfg rest st1
      | (some item, st1) =>
        diversity_sweep cfg rest
          { st1 with
            selected := st1.selected ++ [(key, item)],
            selected_counts := fun k =>
              if k = key then st1.selected_counts k + 1 else st1.selected_counts k,
            unique_sources := st1.unique_sources ++ [key] }

/-- Embeds the diversity-phase `while` loop (graph.py:108-125).  Each
iteration that recurses strictly grew `selected`, which the loop keeps below
`max_items`, so the fuel `max_items.toNat + 1` used below is never
exhausted; the `0` branch is unreachable from the entry point. -/
def phase1 (cfg : SelCfg) : Nat → SelState → SelState
  | 0, st => st
  | fuel + 1, st =>
    if (st.unique_sources.length : Int) < cfg.target_unique ∧
        (st.selected.length : Int) < cfg.max_items then
      let st1 := diversity_sweep cfg cfg.available_sources st
      if st.selected.length < st1.selected.length then phase1 cfg fuel st1 else st1
    else st

/-- Embeds one `for source_key in available_sources` sweep of the fill phase
(graph.py:129-139). -/
def fill_sweep (cfg : SelCfg) : List String → SelState → SelState
  | [], st => st
  | key :: rest, st =>
    if cfg.max_items ≤ (st.selected.length : Int) then st
    else if cfg.cap_eff ≤ (st.selected_counts key : Int) then fill_sweep cfg rest st
    else
      match next_item key st with
      | (none, st1) => fill_sweep cfg rest st1
      | (some item, st1) =>
        fill_sweep cfg rest
          { st1 with
            selected := st1.selected ++ [(key, item)],
            selected_counts := fun k =>
              if k = key then st1.selected_counts k + 1 else st1.selected_counts k }

/-- Embeds the fill-phase `while` loop (graph.py:127-141); fuel as in
`phase1`. -/
def phase2 (cfg : SelCfg) : Nat → SelState → SelState
  | 0, st => st
  | fuel + 1, st =>
    if (st.selected.length : Int) < cfg.max_items then
      let st1 := fill_sweep cfg cfg.available_sources st
      if st.selected.length < st1.selected.length then phase2 cfg fuel st1 else st1
    else st

/-- Initial selector state: all cursors at the start, zero counts, given
session-wide seen sets. -/
def selInit (items_by_source : String → List SourceItem)
    (seen_titles seen_urls : List String) : SelState :=
  { pending := items_by_source
    selected_counts := fun _ => 0
    selected := []
    unique_sources := []
    seen_titles := seen_titles
    seen_urls := seen_urls }

/-- Embeds `_select_items_round_robin` (graph.py:66-143) down to its final
internal state.  The early returns for a non-positive budget and for no
available sources (graph.py:75-79) leave the initial state (empty
selection); `max_items_per_source <= 0` falls back to `max_items`
(graph.py:81-82); `target_unique` is the three-way minimum of line 88. -/
def selMainCfg (items_by_source : String → List SourceItem)
    (source_order : List String)
    (max_items min_unique_domains max_items_per_source : Int) : SelCfg :=
  { available_sources := source_order.filter (fun key => items_by_source key ≠ [])
    max_items := max_items
    target_unique := min (max min_unique_domains 0)
      (min ((source_order.filter (fun key => items_by_source key ≠ [])).length : Int) max_items)
    cap_eff := if max_items_per_source ≤ 0 then max_items else max_items_per_source }

def _select_state (items_by_source : String → List SourceItem)
    (source_order : List String)
    (max_items min_unique_domains max_items_per_source : Int)
    (seen_titles seen_urls : List String) : SelState :=
  if max_items ≤ 0 then selInit items_by_source seen_titles seen_urls
  else if source_order.filter (fun key => items_by_source key ≠ []) = [] then
    selInit items_by_source seen_titles seen_urls
  else
    phase2 (selMainCfg items_by_source source_order max_items min_unique_domains
        max_items_per_source)
      (max_items.toNat + 1)
      (phase1 (selMainCfg items_by_source source_order max_items min_unique_domains
          max_items_per_source)
        (max_items.toNat + 1) (selInit items_by_source seen_titles seen_urls))

/-- The value `_select_items_round_robin` returns: the selected items in
order, with the attribution ghost data dropped. -/
def _select_items_round_robin (items_by_source : String → List SourceItem)
    (source_order : List String)
    (max_items min_unique_domains max_items_per_source : Int)
    (seen_titles seen_urls : List String) : List SourceItem :=
  (_select_state items_by_source source_order max_items min_unique_domains
      max_items_per_source seen_titles seen_urls).selected.map Prod.snd

/-! ## Collection-loop nodes (graph.py:146-310) and the loop wiring
(`build_graph`, graph.py:455-471).

`collect_sources` fans out to external search/feed tools and ends with a
single `model_copy` that replaces `raw_items`, `errors` and
`title_references` (graph.py:270); the external behavior is abstracted as an
oracle producing those three fields.  `screen_items` is the external LLM
screener, abstracted as a function parameter. -/

/-- Embeds `collect_sources` (graph.py:146-270) at the granularity the loop
sees: an oracle chooses the new `raw_items`, `errors` and
`title_references`, and every other state field is preserved, exactly as the
final `state.model_copy` does.  An oracle returning an empty item list
models a round in which every source failed or contributed nothing. -/
def collect_model
    (oracle : GraphState → List SourceItem × List String × List (String × List String))
    (state : GraphState) : GraphState :=
  { state with
    raw_items := (oracle state).1
    errors := (oracle state).2.1
    title_references := (oracle state).2.2 }

/-- Embeds `screen_sources` (graph.py:273-286), with the external
`screen_items` call abstracted as `screenF`: an empty `raw_items` returns
the state unchanged; an empty screening result clears `raw_items` only; a
nonempty screening result replaces `raw_items` and prunes
`title_references` to the normalized titles of kept items. -/
def screen_sources (screenF : List SourceItem → List SourceItem)
    (state : GraphState) : GraphState :=
  if state.raw_items = [] then state
  else
    let screened := screenF state.raw_items
    if screened = [] then { state with raw_items := [] }
    else
      let keep_titles := screened.map (fun item => _normalize_title item.title)
      { state with
        raw_items := screened
        title_references :=
          state.title_references.filter (fun kv => kv.1 ∈ keep_titles) }

/-- Embeds `review_lookback` (graph.py:289-304).  `LOOKBACK_STEP_DAYS`
(config.py:47, default 3) is passed explicitly. -/
def review_lookback (LOOKBACK_STEP_DAYS : Int) (state : GraphState) : GraphState :=
  if state.target_trend_count ≤ (state.raw_items.length : Int) then state
  else if state.max_lookback_days ≤ state.lookback_days then state
  else
    let new_lookback := min (state.lookback_days + LOOKBACK_STEP_DAYS) state.max_lookback_days
    if new_lookback = state.lookback_days then state
    else
      { state with
        lookback_days := new_lookback
        lookback_history := state.lookback_history ++ [new_lookback] }

/-- Embeds `should_expand` (graph.py:307-310). -/
def should_expand (state : GraphState) : String :=
  if (state.raw_items.length : Int) < state.target_trend_count ∧
      state.lookback_days < state.max_lookback_days then "collect"
  else "evaluate"

/-- Result of driving the collect/screen/review cycle: either the
conditional edge chose `evaluate` (the scoring stage) with the state it
hands over, or the round fuel ran out while `should_expand` still said
`collect`. -/
inductive LoopResult where
  | scoring (state : GraphState)
  | outOfFuel (state : GraphState)
deriving DecidableEq, Repr

/-- Embeds the loop wired by `build_graph` (graph.py:464-467):
`collect → screen → review`, then the conditional edge follows
`should_expand` back to `collect` or on to `evaluate`.  `fuel` bounds the
number of rounds considered; the termination theorem shows a fuel derived
from the lookback headroom always suffices. -/
def runLoop
    (oracle : GraphState → List SourceItem × List String × List (String × List String))
    (screenF : List SourceItem → List SourceItem)
    (LOOKBACK_STEP_DAYS : Int) : Nat → GraphState → LoopResult
  | 0, state => LoopResult.outOfFuel state
  | fuel + 1, state =>
    let reviewed :=
      review_lookback LOOKBACK_STEP_DAYS (screen_sources screenF (collect_model oracle state))
    if should_expand reviewed = "collect" then
      runLoop oracle screenF LOOKBACK_STEP_DAYS fuel reviewed
    else LoopResult.scoring reviewed

/-! ## Quota enforcement inside `evaluate_sources` (graph.py:393-407)

The dedup dict keyed by normalized title (or `id` when the normalized title
is empty) is an insertion-ordered association list: Python dict assignment
to an existing key keeps the original position, which `dict_set` mirrors.
`sorted(..., reverse=True)` is a stable descending sort, realised here by
stable insertion. -/

/-- Lookup in an insertion-ordered dict. -/
def dict_get : List (String × TrendItem) → String → Option TrendItem
  | [], _ => none
  | (k, v) :: rest, key => if k = key then some v else dict_get rest key

/-- Assignment in an insertion-ordered dict: an existing key keeps its
position, a new key is appended. -/
def dict_set : List (String × TrendItem) → String → TrendItem → List (String × TrendItem)
  | [], key, v => [(key, v)]
  | (k, w) :: rest, key, v =>
    if k = key then (k, v) :: rest else (k, w) :: dict_set rest key v

/-- Key used by the dedup dict (graph.py:395): the normalized title, or the
item id when the normalized title is empty. -/
def trendKey (trend : TrendItem) : String :=
  if _normalize_title trend.title = "" then trend.id else _normalize_title trend.title

/-- Embeds the dedup loop (graph.py:393-398): a later item replaces the
stored one only when its trending score is strictly higher. -/
def dedupe_trends : List TrendItem → List (String × TrendItem) → List (String × TrendItem)
  | [], acc => acc
  | trend :: rest, acc =>
    match dict_get acc (trendKey trend) with
    | none => dedupe_trends rest (dict_set acc (trendKey trend) trend)
    | some existing =>
      if existing.trending_score < trend.trending_score then
        dedupe_trends rest (dict_set acc (trendKey trend) trend)
      else dedupe_trends rest acc

/-- Stable descending insertion: the new element goes after every already
placed element of greater-or-equal score. -/
def insertDesc (trend : TrendItem) : List TrendItem → List TrendItem
  | [] => [trend]
  | head :: rest =>
    if trend.trending_score ≤ head.trending_score then head :: insertDesc trend rest
    else trend :: head :: rest

/-- Embeds `sorted(deduped.values(), key=..., reverse=True)` (graph.py:400):
a stable sort by trending score descending. -/
def sortDesc (trends : List TrendItem) : List TrendItem :=
  trends.foldl (fun acc trend => insertDesc trend acc) []

/-- Embeds the per-category capping walk (graph.py:401-407):
`per_category_counts.get(category, 0)` is the count function, initially
zero everywhere. -/
def cap_filter (MAX_TRENDS_PER_CATEGORY : Nat) :
    List TrendItem → (String → Nat) → List TrendItem
  | [], _ => []
  | trend :: rest, counts =>
    if MAX_TRENDS_PER_CATEGORY ≤ counts trend.category then
      cap_filter MAX_TRENDS_PER_CATEGORY rest counts
    else
      trend :: cap_filter MAX_TRENDS_PER_CATEGORY rest
        (fun c => if c = trend.category then counts c + 1 else counts c)

/-- The deduplicated items in dict order (`deduped.values()`). -/
def deduped_values (trends : List TrendItem) : List TrendItem :=
  (dedupe_trends trends []).map Prod.snd

/-- Embeds the quota-enforcement tail of `evaluate_sources`
(graph.py:393-407): dedup by normalized title keeping the strictly higher
score, stable sort by score descending, then cap each category at
`MAX_TRENDS_PER_CATEGORY`. -/
def quota_step (trends : List TrendItem) (MAX_TRENDS_PER_CATEGORY : Nat) : List TrendItem :=
  cap_filter MAX_TRENDS_PER_CATEGORY (sortDesc (deduped_values trends)) (fun _ => 0)

theorem round4_nonneg {x : ℝ} (hx : 0 ≤ x) : 0 ≤ round4 x := by
  unfold round4
  have h : (0 : ℤ) ≤ round (x * 10000) := by
    rw [round_eq]
    have : (0 : ℝ) ≤ x * 10000 + 1 / 2 := by positivity
    exact_mod_cast Int.le_floor.mpr (by simpa using this)
  positivity

theorem round4_mono {x y : ℝ} (hxy : x ≤ y) : round4 x ≤ round4 y := by
  unfold round4
  have h : round (x * 10000) ≤ round (y * 10000) := by
    rw [round_eq, round_eq]
    exact Int.floor_mono (by linarith)
  have hcast : ((round (x * 10000) : ℤ) : ℝ) ≤ ((round (y * 10000) : ℤ) : ℝ) := by
    exact_mod_cast h
  linarith

/-! ## Scorer lemmas and claims (C5, C6, C10) -/

/-- The code-side scorer is exactly the spec-side formula followed by
rounding to 4 decimal places. -/
theorem compute_eq_round4_spec (hl now : ℝ) (r : Int) (pub : Option ℝ) :
    compute_trending_score hl now r pub = round4 (spec_trending_score hl now r pub) := by
  cases pub <;> rfl

theorem spec_score_nonneg (hl now : ℝ) (r : Int) (pub : Option ℝ) :
    0 ≤ spec_trending_score hl now r pub := by
  have hlog : 0 ≤ Real.log (1 + ((max r 0 : Int) : ℝ)) := by
    apply Real.log_nonneg
    have h0 : (0 : ℝ) ≤ ((max r 0 : Int) : ℝ) := by exact_mod_cast le_max_right r 0
    linarith
  cases pub with
  | none => exact mul_nonneg hlog (Real.exp_pos _).le
  | some p => exact mul_nonneg hlog (Real.exp_pos _).le

theorem spec_score_mono_ref (hl now : ℝ) (pub : Option ℝ) {r1 r2 : Int} (h : r1 ≤ r2) :
    spec_trending_score hl now r1 pub ≤ spec_trending_score hl now r2 pub := by
  have h0 : (0 : ℝ) ≤ ((max r1 0 : Int) : ℝ) := by exact_mod_cast le_max_right r1 0
  have hmax : ((max r1 0 : Int) : ℝ) ≤ ((max r2 0 : Int) : ℝ) := by
    exact_mod_cast max_le_max h (le_refl (0 : Int))
  have hlog : Real.log (1 + ((max r1 0 : Int) : ℝ)) ≤ Real.log (1 + ((max r2 0 : Int) : ℝ)) :=
    Real.log_le_log (by linarith) (by linarith)
  cases pub with
  | none => exact mul_le_mul_of_nonneg_right hlog (Real.exp_pos _).le
  | some p => exact mul_le_mul_of_nonneg_right hlog (Real.exp_pos _).le

theorem spec_score_mono_age (hl now : ℝ) (r : Int) {p1 p2 : ℝ} (h : p1 ≤ p2) :
    spec_trending_score hl now r (some p1) ≤ spec_trending_score hl now r (some p2) := by
  have hhl : (0 : ℝ) < max hl 0.1 := lt_of_lt_of_le (by norm_num) (le_max_right _ _)
  have hlog : 0 ≤ Real.log (1 + ((max r 0 : Int) : ℝ)) := by
    apply Real.log_nonneg
    have h0 : (0 : ℝ) ≤ ((max r 0 : Int) : ℝ) := by exact_mod_cast le_max_right r 0
    linarith
  have hd : max ((now - p2) / 86400) 0 ≤ max ((now - p1) / 86400) 0 :=
    max_le_max (by linarith) le_rfl
  have hexp : Real.exp (-max ((now - p1) / 86400) 0 / max hl 0.1) ≤
      Real.exp (-max ((now - p2) / 86400) 0 / max hl 0.1) := by
    apply Real.exp_le_exp.mpr
    apply div_le_div_of_nonneg_right ?_ hhl.le
    linarith
  exact mul_le_mul_of_nonneg_left hexp hlog

theorem round_log2 : round (Real.log 2 * 10000) = 6931 := by
  have h1 := Real.log_two_gt_d9
  have h2 := Real.log_two_lt_d9
  rw [round_eq]
  apply Int.floor_eq_iff.mpr
  constructor
  · push_cast
    nlinarith
  · push_cast
    nlinarith

theorem spec_example_none : spec_trending_score 7 0 1 none = Real.log 2 := by
  unfold spec_trending_score
  norm_num

theorem compute_example_none : compute_trending_score 7 0 1 none = 6931 / 10000 := by
  rw [compute_eq_round4_spec, spec_example_none]
  unfold round4
  rw [round_log2]
  norm_num

theorem spec_example_fresh : spec_trending_score 7 0 1 (some 0) = Real.log 2 := by
  unfold spec_trending_score
  norm_num

theorem spec_example_aged :
    spec_trending_score 7 0 1 (some (-10)) = Real.log 2 * Real.exp (-(1 / 60480)) := by
  unfold spec_trending_score
  norm_num

theorem round_log2_aged : round (Real.log 2 * Real.exp (-(1 / 60480)) * 10000) = 6931 := by
  have h1 := Real.log_two_gt_d9
  have h2 := Real.log_two_lt_d9
  have hE1 : Real.exp (-(1 / 60480 : ℝ)) ≤ 1 := Real.exp_le_one_iff.mpr (by norm_num)
  have hE2 : (1 : ℝ) - 1 / 60480 ≤ Real.exp (-(1 / 60480 : ℝ)) := by
    have := Real.add_one_le_exp (-(1 / 60480 : ℝ))
    linarith
  have hlow : (0.6931471803 : ℝ) * (1 - 1 / 60480) ≤ Real.log 2 * Real.exp (-(1 / 60480 : ℝ)) :=
    mul_le_mul h1.le hE2 (by norm_num) (by linarith)
  have hhigh : Real.log 2 * Real.exp (-(1 / 60480 : ℝ)) ≤ 0.6931471808 * 1 :=
    mul_le_mul h2.le hE1 (Real.exp_pos _).le (by norm_num)
  rw [round_eq]
  apply Int.floor_eq_iff.mpr
  constructor
  · push_cast
    nlinarith
  · push_cast
    nlinarith

theorem compute_example_aged : compute_trending_score 7 0 1 (some (-10)) = 6931 / 10000 := by
  rw [compute_eq_round4_spec, spec_example_aged]
  unfold round4
  rw [round_log2_aged]
  norm_num

theorem compute_example_fresh : compute_trending_score 7 0 1 (some 0) = 6931 / 10000 := by
  rw [compute_eq_round4_spec, spec_example_fresh]
  unfold round4
  rw [round_log2]
  norm_num

/-- C10: `compute_trending_score` is total and nonnegative for every integer
reference count (negative included) and every optional publication time
(future included): the half-life divisor is clamped to at least 0.1, hence
strictly positive even for a zero or negative configured half-life, and the
returned score is nonnegative. -/
theorem trending_score_total_nonneg (hl now : ℝ) (r : Int) (pub : Option ℝ) :
    0 ≤ compute_trending_score hl now r pub ∧ (0 : ℝ) < max hl 0.1 := by
  refine ⟨?_, lt_of_lt_of_le (by norm_num) (le_max_right _ _)⟩
  rw [compute_eq_round4_spec]
  exact round4_nonneg (spec_score_nonneg hl now r pub)

/-- C5 counterexample: at `reference_count = 1`, missing `published_at` and
half-life 7, the code returns the 4-decimal rounding `0.6931`, not the exact
spec value `ln 2`; so the claim that `compute_trending_score` returns
`ln(1 + max(r, 0)) * exp(-elapsed/half_life)` exactly is false. -/
theorem trending_score_formula_counterexample :
    compute_trending_score 7 0 1 none = 6931 / 10000 ∧
    spec_trending_score 7 0 1 none = Real.log 2 ∧
    compute_trending_score 7 0 1 none ≠ spec_trending_score 7 0 1 none := by
  refine ⟨compute_example_none, spec_example_none, ?_⟩
  rw [compute_example_none, spec_example_none]
  intro h
  have := Real.log_two_gt_d9
  rw [← h] at this
  norm_num at this

/-- C5 amended: `compute_trending_score` returns the spec formula
`ln(1 + max(reference_count, 0)) * exp(-elapsed_days / half_life)` rounded
to 4 decimal places, with `elapsed_days = max((now - published_at) in days,
0)` and a missing `published_at` treated as `elapsed_days = 0`; a reference
count of 0 still yields score exactly 0 regardless of age. -/
theorem trending_score_is_rounded_formula (hl now : ℝ) (r : Int) (pub : Option ℝ) :
    compute_trending_score hl now r pub = round4 (spec_trending_score hl now r pub) ∧
    compute_trending_score hl now 0 pub = 0 := by
  refine ⟨compute_eq_round4_spec hl now r pub, ?_⟩
  rw [compute_eq_round4_spec]
  have hz : spec_trending_score hl now 0 pub = 0 := by
    unfold spec_trending_score
    norm_num
  rw [hz]
  unfold round4
  norm_num

/-- C6 counterexample: with reference count 1 (positive) and half-life 7, a
publication 10 seconds older than another yields the identical rounded score
0.6931, so the score does not strictly decrease as elapsed age increases. -/
theorem trending_score_strict_decay_counterexample :
    ((-10 : ℝ) < 0) ∧
    compute_trending_score 7 0 1 (some (-10)) = compute_trending_score 7 0 1 (some 0) ∧
    ¬ compute_trending_score 7 0 1 (some (-10)) < compute_trending_score 7 0 1 (some 0) := by
  have h := compute_example_aged
  have h0 := compute_example_fresh
  refine ⟨by norm_num, by rw [h, h0], ?_⟩
  rw [h, h0]
  exact lt_irrefl _

/-- C6 amended: for fixed age the score is monotone non-decreasing in the
reference count, and for fixed reference count the score is monotone
non-increasing in elapsed age (an older publication never scores higher);
because of the final rounding to 4 decimals the age decay is non-strict. -/
theorem trending_score_monotone (hl now : ℝ) :
    (∀ (pub : Option ℝ) (r1 r2 : Int), r1 ≤ r2 →
      compute_trending_score hl now r1 pub ≤ compute_trending_score hl now r2 pub) ∧
    (∀ (r : Int) (p1 p2 : ℝ), p1 ≤ p2 →
      compute_trending_score hl now r (some p1) ≤ compute_trending_score hl now r (some p2)) := by
  constructor
  · intro pub r1 r2 h
    rw [compute_eq_round4_spec, compute_eq_round4_spec]
    exact round4_mono (spec_score_mono_ref hl now pub h)
  · intro r p1 p2 h
    rw [compute_eq_round4_spec, compute_eq_round4_spec]
    exact round4_mono (spec_score_mono_age hl now r h)

/-- C6 witness: the monotonicity theorem applied at concrete inputs with its
hypotheses discharged. -/
theorem trending_score_monotone_witness :
    ((0 : Int) ≤ 3 ∧
      compute_trending_score 7 0 0 none ≤ compute_trending_score 7 0 3 none) ∧
    ((-86400 : ℝ) ≤ 0 ∧
      compute_trending_score 7 0 1 (some (-86400)) ≤ compute_trending_score 7 0 1 (some 0)) :=
  ⟨⟨by norm_num, (trending_score_monotone 7 0).1 none 0 3 (by norm_num)⟩,
   ⟨by norm_num, (trending_score_monotone 7 0).2 1 (-86400) 0 (by norm_num)⟩⟩

lemma should_expand_eq (s : GraphState) :
    (should_expand s = "collect" ↔
      ((s.raw_items.length : Int) < s.target_trend_count ∧
        s.lookback_days < s.max_lookback_days)) ∧
    (should_expand s = "evaluate" ↔
      (s.target_trend_count ≤ (s.raw_items.length : Int) ∨
        s.max_lookback_days ≤ s.lookback_days)) := by
  unfold should_expand
  split_ifs with h
  · exact ⟨iff_of_true rfl h, iff_of_false (by decide) (by omega)⟩
  · exact ⟨iff_of_false (by decide) h, iff_of_true rfl (by omega)⟩

lemma review_lookback_fields (step : Int) (s : GraphState) :
    (review_lookback step s).raw_items = s.raw_items ∧
    (review_lookback step s).target_trend_count = s.target_trend_count ∧
    (review_lookback step s).max_lookback_days = s.max_lookback_days := by
  simp only [review_lookback]
  split_ifs <;> exact ⟨rfl, rfl, rfl⟩

lemma review_lookback_lb_expand (step : Int) (s : GraphState)
    (hlen : (s.raw_items.length : Int) < s.target_trend_count)
    (hlb : s.lookback_days < s.max_lookback_days) :
    (review_lookback step s).lookback_days =
      min (s.lookback_days + step) s.max_lookback_days := by
  simp only [review_lookback]
  split_ifs with h1 h2 h3
  · exact (by omega : False).elim
  · exact (by omega : False).elim
  · exact h3.symm
  · rfl

lemma review_lookback_lb_same (step : Int) (s : GraphState)
    (h : ¬ ((s.raw_items.length : Int) < s.target_trend_count ∧
      s.lookback_days < s.max_lookback_days)) :
    (review_lookback step s).lookback_days = s.lookback_days := by
  simp only [review_lookback]
  split_ifs with h1 h2 h3
  · rfl
  · rfl
  · rfl
  · exact (h ⟨by omega, by omega⟩).elim

lemma screen_sources_fields (screenF : List SourceItem → List SourceItem) (s : GraphState) :
    (screen_sources screenF s).lookback_days = s.lookback_days ∧
    (screen_sources screenF s).target_trend_count = s.target_trend_count ∧
    (screen_sources screenF s).max_lookback_days = s.max_lookback_days := by
  simp only [screen_sources]
  split_ifs <;> exact ⟨rfl, rfl, rfl⟩

lemma collect_model_fields
    (oracle : GraphState → List SourceItem × List String × List (String × List String))
    (s : GraphState) :
    (collect_model oracle s).lookback_days = s.lookback_days ∧
    (collect_model oracle s).target_trend_count = s.target_trend_count ∧
    (collect_model oracle s).max_lookback_days = s.max_lookback_days :=
  ⟨rfl, rfl, rfl⟩

/-- An oracle standing for a collection round in which every source fails or
contributes nothing: zero new items, one recorded error. -/
def zeroOracle : GraphState → List SourceItem × List String × List (String × List String) :=
  fun _ => ([], ["search_sources/AI Products Expert: timeout"], [])

/-- The state the pipeline starts a run from (all `GraphState` defaults). -/
def exInitialState : GraphState := {}

/-- C1 counterexample: starting from the initial state, a round that adds
zero new items (every source failed) does not stop the loop — the decider
still answers `collect`, because `should_expand` only compares the item
count against the target and the lookback against its maximum; there is no
round counter, no pass limit, and no per-category exhaustion tracking in
`GraphState`, so clause (a) of the claim is violated at this reachable
state. -/
theorem deciding_rule_counterexample :
    (collect_model zeroOracle exInitialState).raw_items = [] ∧
    should_expand (review_lookback 3 (screen_sources (fun items => items)
      (collect_model zeroOracle exInitialState))) = "collect" := by
  constructor
  · rfl
  · rfl

/-- C1 amended: the deciding stage moves to scoring exactly when the
accumulated raw-item count has reached the target trend count or the
lookback window has reached its configured maximum; in every other case
`review_lookback` raises the lookback window by the configured step, capped
at the maximum, and `should_expand` loops back to collecting.  The code
tracks no round counter, no pass limit and no per-category quota or
exhaustion state. -/
theorem deciding_rule_characterization (step : Int) (s : GraphState) :
    (should_expand s = "evaluate" ↔
      (s.target_trend_count ≤ (s.raw_items.length : Int) ∨
        s.max_lookback_days ≤ s.lookback_days)) ∧
    (should_expand s = "collect" ↔
      ((s.raw_items.length : Int) < s.target_trend_count ∧
        s.lookback_days < s.max_lookback_days)) ∧
    (((s.raw_items.length : Int) < s.target_trend_count ∧
        s.lookback_days < s.max_lookback_days) →
      (review_lookback step s).lookback_days =
        min (s.lookback_days + step) s.max_lookback_days) ∧
    (¬ ((s.raw_items.length : Int) < s.target_trend_count ∧
        s.lookback_days < s.max_lookback_days) →
      (review_lookback step s).lookback_days = s.lookback_days) ∧
    (review_lookback step s).raw_items = s.raw_items ∧
    (review_lookback step s).target_trend_count = s.target_trend_count ∧
    (review_lookback step s).max_lookback_days = s.max_lookback_days :=
  ⟨(should_expand_eq s).2, (should_expand_eq s).1,
   fun h => review_lookback_lb_expand step s h.1 h.2,
   fun h => review_lookback_lb_same step s h,
   (review_lookback_fields step s).1, (review_lookback_fields step s).2.1,
   (review_lookback_fields step s).2.2⟩

/-- C1 witness: the characterization applied at the concrete initial state,
with the implication premises discharged. -/
theorem deciding_rule_witness :
    (((exInitialState.raw_items.length : Int) < exInitialState.target_trend_count ∧
        exInitialState.lookback_days < exInitialState.max_lookback_days) ∧
      (review_lookback 3 exInitialState).lookback_days =
        min (exInitialState.lookback_days + 3) exInitialState.max_lookback_days) ∧
    should_expand exInitialState = "collect" :=
  ⟨⟨⟨by decide, by decide⟩,
    (deciding_rule_characterization 3 exInitialState).2.2.1 ⟨by decide, by decide⟩⟩,
   (deciding_rule_characterization 3 exInitialState).2.1.mpr ⟨by decide, by decide⟩⟩

lemma runLoop_reaches_scoring
    (oracle : GraphState → List SourceItem × List String × List (String × List String))
    (screenF : List SourceItem → List SourceItem) (step : Int) (hstep : 0 < step) :
    ∀ (fuel : Nat) (s : GraphState),
      (s.max_lookback_days - s.lookback_days).toNat < fuel →
      ∃ out, runLoop oracle screenF step fuel s = LoopResult.scoring out := by
  intro fuel
  induction fuel with
  | zero => exact fun s h => absurd h (Nat.not_lt_zero _)
  | succ f ih =>
    intro s h
    simp only [runLoop]
    set s2 := screen_sources screenF (collect_model oracle s) with hs2
    set reviewed := review_lookback step s2 with hrev
    have hfields2 : s2.lookback_days = s.lookback_days ∧
        s2.target_trend_count = s.target_trend_count ∧
        s2.max_lookback_days = s.max_lookback_days := by
      rw [hs2]
      obtain ⟨a1, a2, a3⟩ := screen_sources_fields screenF (collect_model oracle s)
      obtain ⟨b1, b2, b3⟩ := collect_model_fields oracle s
      exact ⟨a1.trans b1, a2.trans b2, a3.trans b3⟩
    by_cases hc : should_expand reviewed = "collect"
    · rw [if_pos hc]
      apply ih
      have hcond := ((should_expand_eq reviewed).1).mp hc
      have hmaxr : reviewed.max_lookback_days = s.max_lookback_days :=
        ((review_lookback_fields step s2).2.2).trans hfields2.2.2
      by_cases hexp : ((s2.raw_items.length : Int) < s2.target_trend_count ∧
          s2.lookback_days < s2.max_lookback_days)
      · have hlb : reviewed.lookback_days =
            min (s2.lookback_days + step) s2.max_lookback_days :=
          review_lookback_lb_expand step s2 hexp.1 hexp.2
        have h1 : s.lookback_days < reviewed.lookback_days := by
          rw [hlb, ← hfields2.1]
          exact lt_min (by omega) (by omega)
        have h2 : reviewed.lookback_days ≤ s.max_lookback_days := by
          rw [hlb, ← hfields2.2.2]
          exact min_le_right _ _
        rw [hmaxr]
        omega
      · have hlb : reviewed.lookback_days = s2.lookback_days :=
          review_lookback_lb_same step s2 hexp
        exfalso
        have hraw : reviewed.raw_items = s2.raw_items := (review_lookback_fields step s2).1
        have htgt : reviewed.target_trend_count = s2.target_trend_count :=
          (review_lookback_fields step s2).2.1
        have hmax2 : reviewed.max_lookback_days = s2.max_lookback_days :=
          (review_lookback_fields step s2).2.2
        rw [hraw, htgt, hlb, hmax2] at hcond
        exact hexp hcond
    · rw [if_neg hc]
      exact ⟨_, rfl⟩

/-- C9: for every behavior of the external sources and of the screener —
including rounds that add zero items and rounds whose fetches all raise —
the collect/screen/review/should-expand cycle reaches the scoring state
within a number of rounds bounded by the lookback headroom, provided the
configured lookback step is positive (its shipped default is 3). -/
theorem collection_loop_terminates
    (oracle : GraphState → List SourceItem × List String × List (String × List String))
    (screenF : List SourceItem → List SourceItem) (step : Int) (hstep : 0 < step)
    (s : GraphState) :
    ∃ out, runLoop oracle screenF step
      ((s.max_lookback_days - s.lookback_days).toNat + 1) s = LoopResult.scoring out :=
  runLoop_reaches_scoring oracle screenF step hstep _ s (Nat.lt_succ_self _)

/-- C9 witness: the termination theorem at a concrete all-sources-fail
oracle and the default initial state. -/
theorem collection_loop_terminates_witness :
    (0 : Int) < 3 ∧
    ∃ out, runLoop zeroOracle (fun items => items) 3
      ((exInitialState.max_lookback_days - exInitialState.lookback_days).toNat + 1)
      exInitialState = LoopResult.scoring out :=
  ⟨by norm_num,
   collection_loop_terminates zeroOracle (fun items => items) 3 (by norm_num) exInitialState⟩

/-- An item with no usable title and no usable URL: both normalized keys are
empty. -/
def blankItem : SourceItem := { title := "", url := "", source := "blank-src" }

/-- A one-source input holding only the keyless item. -/
def blankBySource : String → List SourceItem :=
  fun key => if key = "s" then [blankItem] else []

/-- C2 counterexample: an item whose normalized title key and normalized URL
key are both empty is selected by the round-robin selection — the dedup
check at graph.py:99 only rejects items whose nonempty key was already
seen, so a keyless item always passes it; the claim that such items are
never included in the output is false. -/
theorem keyless_item_selected_counterexample :
    _normalize_title blankItem.title = "" ∧
    _normalize_url blankItem.url = "" ∧
    _select_items_round_robin blankBySource ["s"] 1 1 4 [] [] = [blankItem] := by
  refine ⟨rfl, rfl, ?_⟩
  decide

/-- C2 amended: an item with both normalized keys empty is never rejected by
the dedup check in `next_item`: whenever the cursor of a source points at
such an item, `next_item` returns it (and the seen sets are unchanged), so
keyless items are always eligible for selection. -/
theorem keyless_item_not_filterable (key : String) (st : SelState) (item : SourceItem)
    (rest : List SourceItem) (hpend : st.pending key = item :: rest)
    (ht : _normalize_title item.title = "") (hu : _normalize_url item.url = "") :
    (next_item key st).1 = some item ∧
    (next_item key st).2.seen_titles = st.seen_titles ∧
    (next_item key st).2.seen_urls = st.seen_urls := by
  unfold next_item
  rw [hpend]
  simp [next_item_go, ht, hu]

/-- C2 witness: the eligibility theorem at the concrete keyless item. -/
theorem keyless_item_not_filterable_witness :
    (selInit blankBySource [] []).pending "s" = blankItem :: [] ∧
    _normalize_title blankItem.title = "" ∧
    _normalize_url blankItem.url = "" ∧
    (next_item "s" (selInit blankBySource [] [])).1 = some blankItem :=
  ⟨rfl, rfl, rfl,
   (keyless_item_not_filterable "s" (selInit blankBySource [] []) blankItem [] rfl rfl rfl).1⟩

/-- A raw item whose normalized title is `x`. -/
def exItemX : SourceItem := { title := "X", url := "http://x.com/a", source := "SrcX" }

/-- A state entering screening with one raw item and a stale
title-reference entry whose key matches no item. -/
def exScreenState : GraphState :=
  { raw_items := [exItemX], title_references := [("stale", ["SomeSource"])] }

/-- C8 counterexample: when screening discards every item, `screen_sources`
returns early (graph.py:278-280) without pruning `title_references`; the
stale key remains although no kept item carries it, so the claimed
invariant fails in exactly the all-discarded case it includes. -/
theorem screening_prune_counterexample :
    (screen_sources (fun _ => []) exScreenState).raw_items = [] ∧
    (screen_sources (fun _ => []) exScreenState).title_references =
      [("stale", ["SomeSource"])] := by
  constructor
  · rfl
  · rfl

/-- Helper: the main branch of `screen_sources`, with both early returns
ruled out. -/
lemma screen_sources_of_kept (screenF : List SourceItem → List SourceItem)
    (s : GraphState) (h1 : s.raw_items ≠ []) (h2 : screenF s.raw_items ≠ []) :
    screen_sources screenF s =
      { s with
        raw_items := screenF s.raw_items
        title_references := s.title_references.filter
          (fun kv => kv.1 ∈ (screenF s.raw_items).map
            (fun item => _normalize_title item.title)) } := by
  simp only [screen_sources, if_neg h1, if_neg h2]

/-- C8 amended: whenever screening keeps at least one item (and there was at
least one raw item to screen), every key remaining in the returned
title-reference index is the normalized title of some kept item; in the
early-return cases (no raw items, or everything discarded) the index is
left untouched instead of being pruned. -/
theorem screening_prunes_refs_to_kept_titles
    (screenF : List SourceItem → List SourceItem) (s : GraphState)
    (h1 : s.raw_items ≠ []) (h2 : screenF s.raw_items ≠ []) :
    ∀ kv ∈ (screen_sources screenF s).title_references,
      ∃ item ∈ (screen_sources screenF s).raw_items,
        _normalize_title item.title = kv.1 := by
  rw [screen_sources_of_kept screenF s h1 h2]
  intro kv hkv
  simp only [List.mem_filter, decide_eq_true_eq] at hkv
  obtain ⟨hmem, hkey⟩ := hkv
  simp only [List.mem_map] at hkey
  obtain ⟨item, hitem, heq⟩ := hkey
  exact ⟨item, hitem, heq⟩

/-- A state entering screening whose single reference key matches the single
raw item. -/
def exKeepState : GraphState :=
  { raw_items := [exItemX], title_references := [("x", ["SrcX"])] }

/-- C8 witness: the pruning theorem at a concrete state with a pass-through
screener. -/
theorem screening_prunes_refs_witness :
    (exKeepState.raw_items ≠ [] ∧ (fun items => items) exKeepState.raw_items ≠ []) ∧
    ∀ kv ∈ (screen_sources (fun items => items) exKeepState).title_references,
      ∃ item ∈ (screen_sources (fun items => items) exKeepState).raw_items,
        _normalize_title item.title = kv.1 :=
  ⟨⟨by decide, by decide⟩,
   screening_prunes_refs_to_kept_titles (fun items => items) exKeepState
     (by decide) (by decide)⟩

/-- Bound invariant of the selector loops: the selection stays within the
item budget and every per-source tally stays within the effective cap. -/
def SelInv (cfg : SelCfg) (st : SelState) : Prop :=
  ((st.selected.length : Int) ≤ cfg.max_items) ∧
  (∀ key, ((st.selected_counts key : Int) ≤ cfg.cap_eff))

lemma next_item_snd_fields (key : String) (st : SelState) :
    (next_item key st).2.selected = st.selected ∧
    (next_item key st).2.selected_counts = st.selected_counts ∧
    (next_item key st).2.unique_sources = st.unique_sources :=
  ⟨rfl, rfl, rfl⟩

lemma diversity_sweep_inv (cfg : SelCfg) :
    ∀ (l : List String) (st : SelState), SelInv cfg st →
      SelInv cfg (diversity_sweep cfg l st)
  | [], st, h => h
  | key :: rest, st, h => by
    simp only [diversity_sweep]
    split_ifs with h1 h2 h3
    · exact h
    · exact diversity_sweep_inv cfg rest st h
    · exact diversity_sweep_inv cfg rest st h
    · rcases hni : next_item key st with ⟨res, st1⟩
      have hsel : st1.selected = st.selected := by
        rw [← (next_item_snd_fields key st).1, hni]
      have hcnt : st1.selected_counts = st.selected_counts := by
        rw [← (next_item_snd_fields key st).2.1, hni]
      cases res with
      | none =>
        exact diversity_sweep_inv cfg rest st1
          ⟨by rw [hsel]; exact h.1, by rw [hcnt]; exact h.2⟩
      | some item =>
        apply diversity_sweep_inv cfg rest
        constructor
        · simp only [List.length_append, List.length_cons, List.length_nil, hsel]
          push_cast
          omega
        · intro k
          by_cases hk : k = key
          · simp only [hk, if_pos rfl, hcnt]
            have := h.2 key
            push_cast
            omega
          · simp only [if_neg hk, hcnt]
            exact h.2 k

lemma fill_sweep_inv (cfg : SelCfg) :
    ∀ (l : List String) (st : SelState), SelInv cfg st →
      SelInv cfg (fill_sweep cfg l st)
  | [], st, h => h
  | key :: rest, st, h => by
    simp only [fill_sweep]
    split_ifs with h1 h2
    · exact h
    · exact fill_sweep_inv cfg rest st h
    · rcases hni : next_item key st with ⟨res, st1⟩
      have hsel : st1.selected = st.selected := by
        rw [← (next_item_snd_fields key st).1, hni]
      have hcnt : st1.selected_counts = st.selected_counts := by
        rw [← (next_item_snd_fields key st).2.1, hni]
      cases res with
      | none =>
        exact fill_sweep_inv cfg rest st1
          ⟨by rw [hsel]; exact h.1, by rw [hcnt]; exact h.2⟩
      | some item =>
        apply fill_sweep_inv cfg rest
        constructor
        · simp only [List.length_append, List.length_cons, List.length_nil, hsel]
          push_cast
          omega
        · intro k
          by_cases hk : k = key
          · simp only [hk, if_pos rfl, hcnt]
            have := h.2 key
            push_cast
            omega
          · simp only [if_neg hk, hcnt]
            exact h.2 k

lemma phase1_inv (cfg : SelCfg) :
    ∀ (fuel : Nat) (st : SelState), SelInv cfg st → SelInv cfg (phase1 cfg fuel st)
  | 0, st, h => h
  | fuel + 1, st, h => by
    simp only [phase1]
    split_ifs with h1 h2
    · exact phase1_inv cfg fuel _ (diversity_sweep_inv cfg cfg.available_sources st h)
    · exact diversity_sweep_inv cfg cfg.available_sources st h
    · exact h

lemma phase2_inv (cfg : SelCfg) :
    ∀ (fuel : Nat) (st : SelState), SelInv cfg st → SelInv cfg (phase2 cfg fuel st)
  | 0, st, h => h
  | fuel + 1, st, h => by
    simp only [phase2]
    split_ifs with h1 h2
    · exact phase2_inv cfg fuel _ (fill_sweep_inv cfg cfg.available_sources st h)
    · exact fill_sweep_inv cfg cfg.available_sources st h
    · exact h

lemma selMainCfg_max_items (items_by_source : String → List SourceItem)
    (source_order : List String) (mi mu cap : Int) :
    (selMainCfg items_by_source source_order mi mu cap).max_items = mi := rfl

lemma selMainCfg_cap_eff (items_by_source : String → List SourceItem)
    (source_order : List String) (mi mu cap : Int) :
    (selMainCfg items_by_source source_order mi mu cap).cap_eff =
      (if cap ≤ 0 then mi else cap) := rfl

lemma select_state_inv (items_by_source : String → List SourceItem)
    (source_order : List String)
    (max_items min_unique_domains max_items_per_source : Int)
    (seen_titles seen_urls : List String) :
    (((_select_state items_by_source source_order max_items min_unique_domains
        max_items_per_source seen_titles seen_urls).selected.length : Int) ≤
      max max_items 0) ∧
    (∀ key, ((_select_state items_by_source source_order max_items min_unique_domains
        max_items_per_source seen_titles seen_urls).selected_counts key : Int) ≤
      (if max_items_per_source ≤ 0 then max max_items 0 else max_items_per_source)) := by
  unfold _select_state
  by_cases hmax : max_items ≤ 0
  · rw [if_pos hmax]
    refine ⟨by simp [selInit], fun key => ?_⟩
    simp only [selInit, Int.natCast_zero]
    by_cases hcap : max_items_per_source ≤ 0
    · rw [if_pos hcap]
      omega
    · rw [if_neg hcap]
      omega
  · rw [if_neg hmax]
    by_cases havail : source_order.filter (fun key => items_by_source key ≠ []) = []
    · rw [if_pos havail]
      refine ⟨by simp [selInit], fun key => ?_⟩
      simp only [selInit, Int.natCast_zero]
      by_cases hcap : max_items_per_source ≤ 0
      · rw [if_pos hcap]
        omega
      · rw [if_neg hcap]
        omega
    · rw [if_neg havail]
      have hinit : SelInv (selMainCfg items_by_source source_order max_items
          min_unique_domains max_items_per_source)
          (selInit items_by_source seen_titles seen_urls) := by
        refine ⟨?_, fun key => ?_⟩
        · rw [selMainCfg_max_items]
          simp only [selInit, List.length_nil, Int.natCast_zero]
          omega
        · rw [selMainCfg_cap_eff]
          simp only [selInit, Int.natCast_zero]
          by_cases hcap : max_items_per_source ≤ 0
          · rw [if_pos hcap]
            omega
          · rw [if_neg hcap]
            omega
      obtain ⟨h1, h2⟩ := phase2_inv _ (max_items.toNat + 1)
        (phase1 _ (max_items.toNat + 1) (selInit items_by_source seen_titles seen_urls))
        (phase1_inv _ (max_items.toNat + 1) _ hinit)
      rw [selMainCfg_max_items] at h1
      refine ⟨by omega, fun key => ?_⟩
      have h2k := h2 key
      rw [selMainCfg_cap_eff] at h2k
      by_cases hcap : max_items_per_source ≤ 0
      · rw [if_pos hcap] at h2k ⊢
        omega
      · rw [if_neg hcap] at h2k ⊢
        exact h2k

/-- A single-source input with one item, used to exercise the
`max_items_per_source <= 0` fallback. -/
def soloItem : SourceItem :=
  { title := "Solo", url := "http://solo.example/x", source := "Solo Site" }

/-- One source keyed `solo.example` holding `soloItem`. -/
def soloBySource : String → List SourceItem :=
  fun key => if key = "solo.example" then [soloItem] else []

/-- C3 counterexample: with `max_items_per_source = 0` the code replaces the
cap by `max_items` (graph.py:81-82), so the lone source still contributes
one item, refuting the claim for non-positive cap values. -/
theorem selector_cap_zero_counterexample :
    _select_items_round_robin soloBySource ["solo.example"] 1 1 0 [] [] = [soloItem] ∧
    (_select_state soloBySource ["solo.example"] 1 1 0 [] []).selected_counts
      "solo.example" = 1 := by
  constructor
  · decide
  · decide

/-- C3 amended: the returned list never exceeds the item budget (at most
`max(max_items, 0)` items, since a non-positive budget returns the empty
selection), and when `max_items_per_source` is positive no source key is
pulled from more than `max_items_per_source` times; a non-positive
`max_items_per_source` is replaced by `max_items` itself, so the per-source
tally is then only bounded by the budget. -/
theorem selector_respects_caps (items_by_source : String → List SourceItem)
    (source_order : List String)
    (max_items min_unique_domains max_items_per_source : Int)
    (seen_titles seen_urls : List String) :
    (((_select_items_round_robin items_by_source source_order max_items
        min_unique_domains max_items_per_source seen_titles seen_urls).length : Int) ≤
      max max_items 0) ∧
    (∀ key, ((_select_state items_by_source source_order max_items min_unique_domains
        max_items_per_source seen_titles seen_urls).selected_counts key : Int) ≤
      (if max_items_per_source ≤ 0 then max max_items 0 else max_items_per_source)) := by
  have h := select_state_inv items_by_source source_order max_items min_unique_domains
    max_items_per_source seen_titles seen_urls
  refine ⟨?_, h.2⟩
  unfold _select_items_round_robin
  rw [List.length_map]
  exact h.1

/-! ## Quota-enforcement lemmas and claims (C7) -/

/-- One update of the replace-if-strictly-higher rule (graph.py:396-398). -/
def replaceStep (cur : Option TrendItem) (t : TrendItem) : Option TrendItem :=
  match cur with
  | none => some t
  | some e => if e.trending_score < t.trending_score then some t else some e

lemma dict_get_set_self (d : List (String × TrendItem)) (k : String) (v : TrendItem) :
    dict_get (dict_set d k v) k = some v := by
  induction d with
  | nil => simp [dict_set, dict_get]
  | cons kv rest ih =>
    cases kv with
    | mk k1 w =>
      by_cases h : k1 = k
      · simp [dict_set, dict_get, h]
      · simp only [dict_set, if_neg h, dict_get]
        exact ih

lemma dict_get_set_ne (d : List (String × TrendItem)) (k k' : String) (v : TrendItem)
    (h : k' ≠ k) : dict_get (dict_set d k v) k' = dict_get d k' := by
  induction d with
  | nil =>
    simp only [dict_set, dict_get]
    rw [if_neg (fun he => h he.symm)]
  | cons kv rest ih =>
    cases kv with
    | mk k1 w =>
      by_cases h1 : k1 = k
      · have hne : ¬ k1 = k' := fun he => h (he.symm.trans h1)
        simp only [dict_set, if_pos h1, dict_get]
        rw [if_neg hne, if_neg hne]
      · simp only [dict_set, if_neg h1, dict_get]
        by_cases h2 : k1 = k'
        · rw [if_pos h2, if_pos h2]
        · rw [if_neg h2, if_neg h2]
          exact ih

lemma dedupe_trends_get (todo : List TrendItem) :
    ∀ (acc : List (String × TrendItem)) (k : String),
      dict_get (dedupe_trends todo acc) k =
        (todo.filter (fun u => trendKey u = k)).foldl replaceStep (dict_get acc k) := by
  induction todo with
  | nil => intro acc k; simp [dedupe_trends]
  | cons u rest ih =>
    intro acc k
    rcases hget : dict_get acc (trendKey u) with _ | e
    · simp only [dedupe_trends, hget]
      rw [ih]
      by_cases hk : trendKey u = k
      · rw [List.filter_cons_of_pos (by simp [hk]), List.foldl_cons]
        subst hk
        rw [dict_get_set_self, hget]
        rfl
      · rw [List.filter_cons_of_neg (by simp [hk]),
          dict_get_set_ne _ _ _ _ (fun he => hk he.symm)]
    · by_cases hlt : e.trending_score < u.trending_score
      · simp only [dedupe_trends, hget, if_pos hlt]
        rw [ih]
        by_cases hk : trendKey u = k
        · rw [List.filter_cons_of_pos (by simp [hk]), List.foldl_cons]
          subst hk
          rw [dict_get_set_self, hget]
          rw [show replaceStep (some e) u = some u by simp [replaceStep, if_pos hlt]]
        · rw [List.filter_cons_of_neg (by simp [hk]),
            dict_get_set_ne _ _ _ _ (fun he => hk he.symm)]
      · simp only [dedupe_trends, hget, if_neg hlt]
        rw [ih]
        by_cases hk : trendKey u = k
        · rw [List.filter_cons_of_pos (by simp [hk]), List.foldl_cons]
          subst hk
          rw [hget]
          rw [show replaceStep (some e) u = some e by simp [replaceStep, if_neg hlt]]
        · rw [List.filter_cons_of_neg (by simp [hk])]

lemma replace_run_some (ts : List TrendItem) :
    ∀ (e t : TrendItem), ts.foldl replaceStep (some e) = some t →
      (∀ u ∈ ts, u.trending_score ≤ t.trending_score) ∧
      e.trending_score ≤ t.trending_score ∧
      (t = e ∨ (t ∈ ts ∧ e.trending_score < t.trending_score ∧
        ts.find? (fun u => t.trending_score ≤ u.trending_score) = some t)) := by
  induction ts with
  | nil =>
    intro e t h
    rw [List.foldl_nil] at h
    injection h with h
    subst h
    exact ⟨fun u hu => absurd hu (List.not_mem_nil u), le_refl _, Or.inl rfl⟩
  | cons u rest ih =>
    intro e t h
    rw [List.foldl_cons] at h
    by_cases hlt : e.trending_score < u.trending_score
    · rw [show replaceStep (some e) u = some u from by
        simp only [replaceStep]; rw [if_pos hlt]] at h
      obtain ⟨hA, hB, hC⟩ := ih u t h
      have het : e.trending_score < t.trending_score := lt_of_lt_of_le hlt hB
      refine ⟨?_, het.le, Or.inr ⟨?_, het, ?_⟩⟩
      · intro v hv
        rcases List.mem_cons.mp hv with hv | hv
        · rw [hv]; exact hB
        · exact hA v hv
      · rcases hC with hC | hC
        · exact hC ▸ List.mem_cons_self u rest
        · exact List.mem_cons_of_mem u hC.1
      · rcases hC with hC | hC
        · subst hC
          rw [List.find?_cons_of_pos _ (by simp)]
        · rw [List.find?_cons_of_neg _
            (by simp only [decide_eq_true_eq]; exact not_le.mpr hC.2.1)]
          exact hC.2.2
    · push_neg at hlt
      rw [show replaceStep (some e) u = some e from by
        simp only [replaceStep]; rw [if_neg (not_lt.mpr hlt)]] at h
      obtain ⟨hA, hB, hC⟩ := ih e t h
      have hut : u.trending_score ≤ t.trending_score := le_trans hlt hB
      refine ⟨?_, hB, ?_⟩
      · intro v hv
        rcases List.mem_cons.mp hv with hv | hv
        · rw [hv]; exact hut
        · exact hA v hv
      · rcases hC with hC | hC
        · exact Or.inl hC
        · refine Or.inr ⟨List.mem_cons_of_mem u hC.1, hC.2.1, ?_⟩
          rw [List.find?_cons_of_neg _
            (by simp only [decide_eq_true_eq]
                exact not_le.mpr (lt_of_le_of_lt hlt hC.2.1))]
          exact hC.2.2

lemma replace_run (ts : List TrendItem) (t : TrendItem)
    (h : ts.foldl replaceStep none = some t) :
    t ∈ ts ∧ (∀ u ∈ ts, u.trending_score ≤ t.trending_score) ∧
    ts.find? (fun u => t.trending_score ≤ u.trending_score) = some t := by
  cases ts with
  | nil => simp [List.foldl_nil] at h
  | cons u rest =>
    rw [List.foldl_cons, show replaceStep none u = some u from rfl] at h
    obtain ⟨hA, hB, hC⟩ := replace_run_some rest u t h
    refine ⟨?_, ?_, ?_⟩
    · rcases hC with hC | hC
      · exact hC ▸ List.mem_cons_self u rest
      · exact List.mem_cons_of_mem u hC.1
    · intro v hv
      rcases List.mem_cons.mp hv with hv | hv
      · rw [hv]; exact hB
      · exact hA v hv
    · rcases hC with hC | hC
      · subst hC
        rw [List.find?_cons_of_pos _ (by simp)]
      · rw [List.find?_cons_of_neg _
          (by simp only [decide_eq_true_eq]; exact not_le.mpr hC.2.1)]
        exact hC.2.2

lemma dict_get_none_iff (d : List (String × TrendItem)) (k : String) :
    dict_get d k = none ↔ k ∉ d.map Prod.fst := by
  induction d with
  | nil => simp [dict_get]
  | cons kv rest ih =>
    cases kv with
    | mk k1 w =>
      simp only [dict_get, List.map_cons, List.mem_cons]
      by_cases h : k1 = k
      · rw [if_pos h]
        simp [h]
      · rw [if_neg h]
        rw [ih]
        constructor
        · intro hnot hmem
          rcases hmem with hmem | hmem
          · exact h hmem.symm
          · exact hnot hmem
        · intro hnot hmem
          exact hnot (Or.inr hmem)

lemma dict_set_keys (d : List (String × TrendItem)) (k : String) (v : TrendItem) :
    (dict_set d k v).map Prod.fst =
      (if dict_get d k = none then d.map Prod.fst ++ [k] else d.map Prod.fst) := by
  induction d with
  | nil => simp [dict_set, dict_get]
  | cons kv rest ih =>
    cases kv with
    | mk k1 w =>
      by_cases h : k1 = k
      · subst h
        simp [dict_set, dict_get]
      · simp only [dict_set, dict_get, if_neg h, List.map_cons, ih]
        by_cases hg : dict_get rest k = none
        · rw [if_pos hg, if_pos hg]
          simp
        · rw [if_neg hg, if_neg hg]

lemma dict_set_keys_nodup (d : List (String × TrendItem)) (k : String) (v : TrendItem)
    (h : (d.map Prod.fst).Nodup) : ((dict_set d k v).map Prod.fst).Nodup := by
  rw [dict_set_keys]
  by_cases hg : dict_get d k = none
  · rw [if_pos hg]
    have hk : k ∉ d.map Prod.fst := (dict_get_none_iff d k).mp hg
    exact ((List.perm_append_singleton k (d.map Prod.fst)).nodup_iff).mpr
      (List.nodup_cons.mpr ⟨hk, h⟩)
  · rw [if_neg hg]
    exact h

/-- Well-formedness of the dedup dict: every stored value carries its key. -/
def DictWF (d : List (String × TrendItem)) : Prop :=
  ∀ kv ∈ d, trendKey kv.2 = kv.1

lemma dict_set_WF (d : List (String × TrendItem)) (v : TrendItem)
    (h : DictWF d) : DictWF (dict_set d (trendKey v) v) := by
  induction d with
  | nil =>
    intro kv hkv
    simp only [dict_set, List.mem_singleton] at hkv
    rw [hkv]
  | cons kw rest ih =>
    cases kw with
    | mk k1 w =>
      simp only [dict_set]
      by_cases h1 : k1 = trendKey v
      · rw [if_pos h1]
        intro kv hkv
        rcases List.mem_cons.mp hkv with hkv | hkv
        · rw [hkv]
          exact h1.symm
        · exact h kv (List.mem_cons_of_mem _ hkv)
      · rw [if_neg h1]
        intro kv hkv
        rcases List.mem_cons.mp hkv with hkv | hkv
        · rw [hkv]
          exact h (k1, w) (List.mem_cons_self _ _)
        · exact ih (fun kw hkw => h kw (List.mem_cons_of_mem _ hkw)) kv hkv

lemma dedupe_trends_keys_nodup_WF (todo : List TrendItem) :
    ∀ (acc : List (String × TrendItem)),
      ((acc.map Prod.fst).Nodup ∧ DictWF acc) →
      (((dedupe_trends todo acc).map Prod.fst).Nodup ∧ DictWF (dedupe_trends todo acc)) := by
  induction todo with
  | nil => intro acc h; exact h
  | cons u rest ih =>
    intro acc h
    rcases hget : dict_get acc (trendKey u) with _ | e
    · simp only [dedupe_trends, hget]
      exact ih _ ⟨dict_set_keys_nodup acc (trendKey u) u h.1, dict_set_WF acc u h.2⟩
    · by_cases hlt : e.trending_score < u.trending_score
      · simp only [dedupe_trends, hget, if_pos hlt]
        exact ih _ ⟨dict_set_keys_nodup acc (trendKey u) u h.1, dict_set_WF acc u h.2⟩
      · simp only [dedupe_trends, hget, if_neg hlt]
        exact ih _ h

/-- Two items clash on the nonempty normalized title only if it is empty:
the shape of the per-title uniqueness guarantee. -/
def TitleDistinct (a b : TrendItem) : Prop :=
  _normalize_title a.title = _normalize_title b.title → _normalize_title a.title = ""

lemma deduped_values_pairwise (trends : List TrendItem) :
    (deduped_values trends).Pairwise TitleDistinct := by
  obtain ⟨hnodup, hwf⟩ := dedupe_trends_keys_nodup_WF trends [] ⟨List.nodup_nil, by intro kv hkv; exact absurd hkv (List.not_mem_nil kv)⟩
  unfold deduped_values
  have hpair : (dedupe_trends trends []).Pairwise (fun x y => x.1 ≠ y.1) :=
    (List.pairwise_map).mp hnodup
  rw [List.pairwise_map]
  refine hpair.imp_of_mem ?_
  intro x y hx hy hxy
  intro heq
  by_contra hne
  apply hxy
  have hwx : trendKey x.2 = x.1 := hwf x hx
  have hwy : trendKey y.2 = y.1 := hwf y hy
  rw [← hwx, ← hwy]
  unfold trendKey
  rw [if_neg hne, if_neg (fun hy0 => hne (heq.trans hy0))]
  exact heq

/-- Score-descending order relation used by the sort. -/
def ScoreDesc (a b : TrendItem) : Prop := b.trending_score ≤ a.trending_score

lemma insertDesc_perm (t : TrendItem) (l : List TrendItem) :
    List.Perm (insertDesc t l) (t :: l) := by
  induction l with
  | nil => exact List.Perm.refl _
  | cons y rest ih =>
    simp only [insertDesc]
    split_ifs with h
    · exact ((ih.cons y).trans (List.Perm.swap t y rest))
    · exact List.Perm.refl _

lemma sortDesc_foldl_perm (l : List TrendItem) :
    ∀ acc : List TrendItem,
      List.Perm (l.foldl (fun a t => insertDesc t a) acc) (acc ++ l) := by
  induction l with
  | nil => intro acc; simp
  | cons t rest ih =>
    intro acc
    rw [List.foldl_cons]
    refine (ih (insertDesc t acc)).trans ?_
    refine (List.Perm.append_right rest (insertDesc_perm t acc)).trans ?_
    exact List.Perm.symm (List.perm_middle)

lemma sortDesc_perm (l : List TrendItem) : List.Perm (sortDesc l) l := by
  have := sortDesc_foldl_perm l []
  simpa [sortDesc] using this

lemma insertDesc_mem (t : TrendItem) (l : List TrendItem) (x : TrendItem)
    (hx : x ∈ insertDesc t l) : x = t ∨ x ∈ l :=
  List.mem_cons.mp ((insertDesc_perm t l).mem_iff.mp hx)

lemma insertDesc_sorted (t : TrendItem) (l : List TrendItem)
    (h : l.Pairwise ScoreDesc) : (insertDesc t l).Pairwise ScoreDesc := by
  induction l with
  | nil => exact List.pairwise_singleton _ _
  | cons y rest ih =>
    simp only [insertDesc]
    split_ifs with hty
    · rcases List.pairwise_cons.mp h with ⟨hy, hrest⟩
      refine List.pairwise_cons.mpr ⟨?_, ih hrest⟩
      intro x hx
      rcases insertDesc_mem t rest x hx with hx | hx
      · rw [hx]
        exact hty
      · exact hy x hx
    · push_neg at hty
      refine List.pairwise_cons.mpr ⟨?_, h⟩
      intro x hx
      rcases List.mem_cons.mp hx with hx | hx
      · rw [hx]
        exact hty.le
      · rcases List.pairwise_cons.mp h with ⟨hy, _⟩
        exact le_trans (hy x hx) hty.le

lemma sortDesc_foldl_sorted (l : List TrendItem) :
    ∀ acc : List TrendItem, acc.Pairwise ScoreDesc →
      (l.foldl (fun a t => insertDesc t a) acc).Pairwise ScoreDesc := by
  induction l with
  | nil => intro acc h; exact h
  | cons t rest ih =>
    intro acc h
    rw [List.foldl_cons]
    exact ih _ (insertDesc_sorted t acc h)

lemma sortDesc_sorted (l : List TrendItem) : (sortDesc l).Pairwise ScoreDesc :=
  sortDesc_foldl_sorted l [] List.Pairwise.nil

lemma filter_score_eq_nil (l : List TrendItem) (q : ℚ)
    (h : ∀ x ∈ l, x.trending_score < q) :
    l.filter (fun x => x.trending_score = q) = [] := by
  rw [List.filter_eq_nil_iff]
  intro x hx
  simp only [decide_eq_true_eq]
  exact ne_of_lt (h x hx)

lemma insertDesc_filter (t : TrendItem) (q : ℚ) (l : List TrendItem)
    (h : l.Pairwise ScoreDesc) :
    (insertDesc t l).filter (fun x => x.trending_score = q) =
      (if t.trending_score = q
        then l.filter (fun x => x.trending_score = q) ++ [t]
        else l.filter (fun x => x.trending_score = q)) := by
  induction l with
  | nil =>
    simp only [insertDesc, List.filter_nil]
    by_cases hq : t.trending_score = q
    · rw [if_pos hq, List.filter_cons, if_pos (by simpa using hq)]
      simp
    · rw [if_neg hq, List.filter_cons, if_neg (by simpa using hq)]
      simp
  | cons y rest ih =>
    rcases List.pairwise_cons.mp h with ⟨hy, hrest⟩
    by_cases hty : t.trending_score ≤ y.trending_score
    · rw [show insertDesc t (y :: rest) = y :: insertDesc t rest from by
        simp only [insertDesc]; rw [if_pos hty]]
      by_cases hq : t.trending_score = q
      · rw [if_pos hq, List.filter_cons, List.filter_cons, ih hrest, if_pos hq]
        by_cases hyq : y.trending_score = q
        · rw [if_pos (by simpa using hyq), if_pos (by simpa using hyq)]
          simp
        · rw [if_neg (by simpa using hyq), if_neg (by simpa using hyq)]
      · rw [if_neg hq, List.filter_cons, List.filter_cons, ih hrest, if_neg hq]
    · rw [show insertDesc t (y :: rest) = t :: y :: rest from by
        simp only [insertDesc]; rw [if_neg hty]]
      push_neg at hty
      by_cases hq : t.trending_score = q
      · rw [if_pos hq]
        have hnil : (y :: rest).filter (fun x => x.trending_score = q) = [] := by
          apply filter_score_eq_nil
          intro x hx
          rcases List.mem_cons.mp hx with hx | hx
          · rw [hx, ← hq]
            exact hty
          · exact lt_of_le_of_lt (hy x hx) (hq ▸ hty)
        rw [List.filter_cons, if_pos (by simpa using hq), hnil]
        simp
      · rw [if_neg hq, List.filter_cons, if_neg (by simpa using hq)]

lemma sortDesc_foldl_filter (l : List TrendItem) (q : ℚ) :
    ∀ acc : List TrendItem, acc.Pairwise ScoreDesc →
      (l.foldl (fun a t => insertDesc t a) acc).filter (fun x => x.trending_score = q) =
        acc.filter (fun x => x.trending_score = q) ++
          l.filter (fun x => x.trending_score = q) := by
  induction l with
  | nil => intro acc h; simp
  | cons t rest ih =>
    intro acc h
    rw [List.foldl_cons, ih _ (insertDesc_sorted t acc h), insertDesc_filter t q acc h]
    rw [List.filter_cons]
    by_cases hq : t.trending_score = q
    · rw [if_pos hq, if_pos (by simpa using hq)]
      simp
    · rw [if_neg hq, if_neg (by simpa using hq)]

lemma sortDesc_stable (l : List TrendItem) (q : ℚ) :
    (sortDesc l).filter (fun x => x.trending_score = q) =
      l.filter (fun x => x.trending_score = q) := by
  have := sortDesc_foldl_filter l q [] List.Pairwise.nil
  simpa [sortDesc] using this

lemma cap_filter_sublist (K : Nat) :
    ∀ (l : List TrendItem) (counts : String → Nat), (cap_filter K l counts).Sublist l
  | [], _ => List.Sublist.refl _
  | t :: rest, counts => by
    simp only [cap_filter]
    split_ifs with h
    · exact (cap_filter_sublist K rest counts).cons t
    · exact (cap_filter_sublist K rest _).cons₂ t

lemma cap_filter_countP (K : Nat) (c : String) :
    ∀ (l : List TrendItem) (counts : String → Nat),
      (cap_filter K l counts).countP (fun t => t.category = c) ≤ K - counts c
  | [], counts => by simp [cap_filter]
  | t :: rest, counts => by
    simp only [cap_filter]
    split_ifs with h
    · exact cap_filter_countP K c rest counts
    · rw [List.countP_cons]
      by_cases hc : t.category = c
      · subst hc
        have hlt : counts t.category < K := by omega
        have ih := cap_filter_countP K t.category rest
          (fun x => if x = t.category then counts x + 1 else counts x)
        rw [if_pos rfl] at ih
        rw [if_pos (show decide (t.category = t.category) = true from by simp)]
        omega
      · have ih := cap_filter_countP K c rest
          (fun x => if x = t.category then counts x + 1 else counts x)
        rw [if_neg (fun he => hc he.symm)] at ih
        rw [if_neg (show ¬ decide (t.category = c) = true from by simpa using hc)]
        omega

lemma titleDistinct_symm : Symmetric TitleDistinct := by
  intro a b hab heq
  rw [heq]
  exact hab heq.symm

/-- A scored item whose title normalizes to the empty string. -/
def bangItem : TrendItem :=
  { id := "id-a", category := "product", title := "!!", publication := "P",
    url := "u1", source := "s1", trending_score := 1 }

/-- A second keyless-title item with a different id and a higher score. -/
def quesItem : TrendItem :=
  { id := "id-b", category := "product", title := "??", publication := "Q",
    url := "u2", source := "s2", trending_score := 2 }

/-- C7 counterexample: two items whose titles both normalize to the empty
string are keyed by their distinct ids (graph.py:395), so both survive the
dedup and the output contains the same normalized title twice; the claim
that each normalized title appears at most once is false for empty
normalized titles. -/
theorem quota_empty_title_counterexample :
    _normalize_title bangItem.title = "" ∧
    _normalize_title quesItem.title = "" ∧
    quota_step [bangItem, quesItem] 12 = [quesItem, bangItem] ∧
    ¬ ((quota_step [bangItem, quesItem] 12).map
        (fun t => _normalize_title t.title)).Pairwise (fun a b => a ≠ b) := by
  refine ⟨rfl, rfl, by decide, by decide⟩

/-- C7 amended: for every input list and cap `K`, the quota step emits at
most `K` items per category; two distinct output items can share a
normalized title only when that title is empty (keyless items are keyed by
id instead); the output is ordered by trending score descending and is an
order-preserving selection from the stable descending sort of the
deduplicated values, which keeps equal scores in dict insertion order; and
for every key the dict survivor is an input item with that key whose score
is maximal among same-key items, the earliest such item winning ties (a
later item replaced it only on strictly higher score). -/
theorem quota_enforcement_spec (trends : List TrendItem) (K : Nat) :
    (∀ c, (quota_step trends K).countP (fun t => t.category = c) ≤ K) ∧
    (quota_step trends K).Pairwise TitleDistinct ∧
    (quota_step trends K).Pairwise ScoreDesc ∧
    (quota_step trends K).Sublist (sortDesc (deduped_values trends)) ∧
    (∀ q, (sortDesc (deduped_values trends)).filter (fun x => x.trending_score = q) =
      (deduped_values trends).filter (fun x => x.trending_score = q)) ∧
    (∀ k t, dict_get (dedupe_trends trends []) k = some t →
      t ∈ trends ∧ trendKey t = k ∧
      (∀ u ∈ trends, trendKey u = k → u.trending_score ≤ t.trending_score) ∧
      (trends.filter (fun u => trendKey u = k)).find?
        (fun u => t.trending_score ≤ u.trending_score) = some t) := by
  have hsub : (quota_step trends K).Sublist (sortDesc (deduped_values trends)) :=
    cap_filter_sublist K (sortDesc (deduped_values trends)) (fun _ => 0)
  refine ⟨?_, ?_, ?_, hsub, ?_, ?_⟩
  · intro c
    have := cap_filter_countP K c (sortDesc (deduped_values trends)) (fun _ => 0)
    simpa [quota_step] using this
  · have hvals : (deduped_values trends).Pairwise TitleDistinct :=
      deduped_values_pairwise trends
    have hsorted : (sortDesc (deduped_values trends)).Pairwise TitleDistinct :=
      ((sortDesc_perm (deduped_values trends)).pairwise_iff (fun hab => titleDistinct_symm hab)).mpr hvals
    exact hsorted.sublist hsub
  · exact (sortDesc_sorted (deduped_values trends)).sublist hsub
  · intro q
    exact sortDesc_stable (deduped_values trends) q
  · intro k t h
    rw [dedupe_trends_get trends [] k] at h
    rw [show dict_get ([] : List (String × TrendItem)) k = none from rfl] at h
    obtain ⟨hmem, hmax, hfind⟩ := replace_run _ t h
    have hm := List.mem_filter.mp hmem
    refine ⟨hm.1, by simpa using hm.2, ?_, hfind⟩
    intro u hu hku
    exact hmax u (List.mem_filter.mpr ⟨hu, by simpa using hku⟩)

/-- A titled item that loses the dedup to a higher-scored duplicate. -/
def alphaLow : TrendItem :=
  { id := "w1", category := "product", title := "Alpha", publication := "P",
    url := "w1u", source := "s1", trending_score := 1 }

/-- A later duplicate of the same normalized title with a strictly higher
score. -/
def alphaHigh : TrendItem :=
  { id := "w2", category := "product", title := "alpha!", publication := "Q",
    url := "w2u", source := "s2", trending_score := 2 }

/-- C7 witness: the quota theorem at a concrete two-element input whose
items share the normalized title `alpha`; the higher-scored later item is
the survivor. -/
theorem quota_enforcement_witness :
    dict_get (dedupe_trends [alphaLow, alphaHigh] []) "alpha" = some alphaHigh ∧
    (quota_step [alphaLow, alphaHigh] 2).countP (fun t => t.category = "product") ≤ 2 ∧
    (∀ u ∈ [alphaLow, alphaHigh], trendKey u = "alpha" →
      u.trending_score ≤ alphaHigh.trending_score) ∧
    ([alphaLow, alphaHigh].filter (fun u => trendKey u = "alpha")).find?
      (fun u => alphaHigh.trending_score ≤ u.trending_score) = some alphaHigh :=
  ⟨by decide, (quota_enforcement_spec [alphaLow, alphaHigh] 2).1 "product",
   fun u hu hk =>
     ((quota_enforcement_spec [alphaLow, alphaHigh] 2).2.2.2.2.2 "alpha" alphaHigh
       (by decide)).2.2.1 u hu hk,
   ((quota_enforcement_spec [alphaLow, alphaHigh] 2).2.2.2.2.2 "alpha" alphaHigh
     (by decide)).2.2.2⟩

/-! ## Fair Selector diversity lemmas and claims (C4) -/

/-- All items the sweep can still reach, in source order. -/
def pendingItems (avail : List String) (p : String → List SourceItem) : List SourceItem :=
  avail.flatMap p

/-- Freshness of a batch of items with respect to the session dedup state:
no nonempty normalized key is already seen, and two distinct items agree on
a normalized key only when that key is empty. -/
def KeyFresh (items : List SourceItem) (seenT seenU : List String) : Prop :=
  (∀ it ∈ items,
    (_normalize_title it.title ≠ "" → _normalize_title it.title ∉ seenT) ∧
    (_normalize_url it.url ≠ "" → _normalize_url it.url ∉ seenU)) ∧
  items.Pairwise (fun a b =>
    (_normalize_title a.title = _normalize_title b.title → _normalize_title a.title = "") ∧
    (_normalize_url a.url = _normalize_url b.url → _normalize_url a.url = ""))

lemma keyFreshRel_symm :
    Symmetric (fun a b : SourceItem =>
      (_normalize_title a.title = _normalize_title b.title → _normalize_title a.title = "") ∧
      (_normalize_url a.url = _normalize_url b.url → _normalize_url a.url = "")) := by
  intro a b hab
  constructor
  · intro heq
    rw [heq]
    exact hab.1 heq.symm
  · intro heq
    rw [heq]
    exact hab.2 heq.symm

lemma pendingItems_congr (avail : List String) (p q : String → List SourceItem)
    (h : ∀ k ∈ avail, p k = q k) : pendingItems avail p = pendingItems avail q := by
  induction avail with
  | nil => rfl
  | cons a rest ih =>
    simp only [pendingItems, List.flatMap_cons]
    rw [h a (List.mem_cons_self a rest),
      show rest.flatMap p = rest.flatMap q from
        ih (fun k hk => h k (List.mem_cons_of_mem a hk))]

lemma next_item_fresh (key : String) (st : SelState) (item : SourceItem)
    (rest : List SourceItem) (hpend : st.pending key = item :: rest)
    (ht : _normalize_title item.title ≠ "" → _normalize_title item.title ∉ st.seen_titles)
    (hu : _normalize_url item.url ≠ "" → _normalize_url item.url ∉ st.seen_urls) :
    (next_item key st).1 = some item ∧
    (next_item key st).2.pending key = rest ∧
    (∀ k, k ≠ key → (next_item key st).2.pending k = st.pending k) ∧
    (next_item key st).2.seen_titles =
      (if _normalize_title item.title ≠ ""
        then _normalize_title item.title :: st.seen_titles else st.seen_titles) ∧
    (next_item key st).2.seen_urls =
      (if _normalize_url item.url ≠ ""
        then _normalize_url item.url :: st.seen_urls else st.seen_urls) := by
  have hgo : next_item_go (st.pending key) st.seen_titles st.seen_urls =
      (some item, rest,
        (if _normalize_title item.title ≠ ""
          then _normalize_title item.title :: st.seen_titles else st.seen_titles),
        (if _normalize_url item.url ≠ ""
          then _normalize_url item.url :: st.seen_urls else st.seen_urls)) := by
    rw [hpend]
    simp only [next_item_go]
    rw [if_neg]
    rintro (⟨h1, h2⟩ | ⟨h1, h2⟩)
    · exact ht h1 h2
    · exact hu h1 h2
  refine ⟨?_, ?_, ?_, ?_, ?_⟩
  · show (next_item_go (st.pending key) st.seen_titles st.seen_urls).1 = some item
    rw [hgo]
  · show (fun k => if k = key
        then (next_item_go (st.pending key) st.seen_titles st.seen_urls).2.1
        else st.pending k) key = rest
    simp [hgo]
  · intro k hk
    show (fun k => if k = key
        then (next_item_go (st.pending key) st.seen_titles st.seen_urls).2.1
        else st.pending k) k = st.pending k
    simp [hk]
  · show (next_item_go (st.pending key) st.seen_titles st.seen_urls).2.2.1 = _
    rw [hgo]
  · show (next_item_go (st.pending key) st.seen_titles st.seen_urls).2.2.2 = _
    rw [hgo]

lemma next_item_none_of_nil (key : String) (st : SelState)
    (hpend : st.pending key = []) :
    (next_item key st).1 = none ∧
    (∀ k, (next_item key st).2.pending k = st.pending k) ∧
    (next_item key st).2.seen_titles = st.seen_titles ∧
    (next_item key st).2.seen_urls = st.seen_urls := by
  have hgo : next_item_go (st.pending key) st.seen_titles st.seen_urls =
      (none, [], st.seen_titles, st.seen_urls) := by
    rw [hpend]
    rfl
  refine ⟨?_, ?_, ?_, ?_⟩
  · show (next_item_go (st.pending key) st.seen_titles st.seen_urls).1 = none
    rw [hgo]
  · intro k
    show (fun k => if k = key
        then (next_item_go (st.pending key) st.seen_titles st.seen_urls).2.1
        else st.pending k) k = st.pending k
    by_cases hk : k = key
    · simp [hk, hgo, hpend, next_item_go]
    · simp [hk]
  · show (next_item_go (st.pending key) st.seen_titles st.seen_urls).2.2.1 = _
    rw [hgo]
  · show (next_item_go (st.pending key) st.seen_titles st.seen_urls).2.2.2 = _
    rw [hgo]

lemma pendingItems_decomp (A1 A2 : List String) (key : String)
    (p : String → List SourceItem) :
    pendingItems (A1 ++ key :: A2) p =
      pendingItems A1 p ++ (p key ++ pendingItems A2 p) := by
  simp [pendingItems, List.flatMap_append, List.flatMap_cons]

lemma keyfresh_consume (L1 L2 rest : List SourceItem) (item : SourceItem)
    (seenT seenU : List String)
    (h : KeyFresh (L1 ++ item :: (rest ++ L2)) seenT seenU) :
    KeyFresh (L1 ++ (rest ++ L2))
      (if _normalize_title item.title ≠ ""
        then _normalize_title item.title :: seenT else seenT)
      (if _normalize_url item.url ≠ ""
        then _normalize_url item.url :: seenU else seenU) := by
  obtain ⟨h1, h2⟩ := h
  have hmid := (List.pairwise_middle (fun hab => keyFreshRel_symm hab)).mp h2
  rcases List.pairwise_cons.mp hmid with ⟨hitem, hrestpair⟩
  have hsub : (L1 ++ (rest ++ L2)).Sublist (L1 ++ item :: (rest ++ L2)) :=
    (List.sublist_cons_self item (rest ++ L2)).append_left L1
  constructor
  · intro it hit
    have hitold := h1 it (hsub.subset hit)
    have hrel := hitem it hit
    constructor
    · intro hne
      by_cases hti : _normalize_title item.title = ""
      · rw [if_neg (fun hx => hx hti)]
        exact hitold.1 hne
      · rw [if_pos hti]
        intro hmem
        rcases List.mem_cons.mp hmem with heq | hmem
        · exact hti (hrel.1 heq.symm)
        · exact hitold.1 hne hmem
    · intro hne
      by_cases hui : _normalize_url item.url = ""
      · rw [if_neg (fun hx => hx hui)]
        exact hitold.2 hne
      · rw [if_pos hui]
        intro hmem
        rcases List.mem_cons.mp hmem with heq | hmem
        · exact hui (hrel.2 heq.symm)
        · exact hitold.2 hne hmem
  · exact hrestpair

/-- Phase-1 invariant relating a selector state to the original per-source
item map `p0`: the reachable items are fresh, the selection and the
represented-source set advance in lockstep, and sources never pulled from
keep zero counts and untouched cursors. -/
def P1Inv (cfg : SelCfg) (p0 : String → List SourceItem) (st : SelState) : Prop :=
  KeyFresh (pendingItems cfg.available_sources st.pending) st.seen_titles st.seen_urls ∧
  st.selected.map Prod.fst = st.unique_sources ∧
  st.unique_sources.Nodup ∧
  (∀ k, k ∉ st.unique_sources → st.selected_counts k = 0) ∧
  (∀ k, k ∉ st.unique_sources → st.pending k = p0 k)

lemma diversity_sweep_fresh (cfg : SelCfg) (p0 : String → List SourceItem)
    (hA : cfg.available_sources.Nodup)
    (htm : cfg.target_unique ≤ cfg.max_items)
    (hcap : 0 < cfg.cap_eff) :
    ∀ (l : List String) (st : SelState),
      l.Sublist cfg.available_sources →
      P1Inv cfg p0 st →
      st.selected.length = st.unique_sources.length →
      ((st.unique_sources.length : Int) ≤ cfg.target_unique) →
      ((diversity_sweep cfg l st).unique_sources.length : Int) =
        min cfg.target_unique ((st.unique_sources.length : Int) +
          ((l.filter (fun k => k ∉ st.unique_sources ∧ st.pending k ≠ [])).length : Int)) ∧
      P1Inv cfg p0 (diversity_sweep cfg l st) ∧
      (diversity_sweep cfg l st).selected.length =
        (diversity_sweep cfg l st).unique_sources.length := by
  intro l
  induction l with
  | nil =>
    intro st hsub hinv hlen hle
    refine ⟨?_, hinv, hlen⟩
    simp only [diversity_sweep, List.filter_nil, List.length_nil, Int.natCast_zero, add_zero]
    rw [min_eq_right hle]
  | cons key rest ih =>
    intro st hsub hinv hlen hle
    have hrestsub : rest.Sublist cfg.available_sources :=
      (List.sublist_cons_self key rest).trans hsub
    have hkeymem : key ∈ cfg.available_sources := hsub.subset (List.mem_cons_self key rest)
    have hlnodup : (key :: rest).Nodup := hA.sublist hsub
    have hkeyrest : key ∉ rest := (List.nodup_cons.mp hlnodup).1
    simp only [diversity_sweep]
    split_ifs with hstop hmem hcapg
    · refine ⟨?_, hinv, hlen⟩
      have hueq : (st.unique_sources.length : Int) = cfg.target_unique := by
        rcases hstop with hstop | hstop
        · omega
        · rw [hlen] at hstop
          omega
      rw [hueq, min_eq_left (by omega)]
    · have hfc : (key :: rest).filter
          (fun k => k ∉ st.unique_sources ∧ st.pending k ≠ []) =
          rest.filter (fun k => k ∉ st.unique_sources ∧ st.pending k ≠ []) :=
        List.filter_cons_of_neg (by simp [hmem])
      rw [hfc]
      exact ih st hrestsub hinv hlen hle
    · exfalso
      have h0 : st.selected_counts key = 0 := hinv.2.2.2.1 key hmem
      rw [h0] at hcapg
      push_cast at hcapg
      omega
    · rcases hpd : st.pending key with _ | ⟨item, restitems⟩
      · obtain ⟨hres, hpend, hseenT, hseenU⟩ := next_item_none_of_nil key st hpd
        rcases hni : next_item key st with ⟨res, st1⟩
        rw [hni] at hres hpend hseenT hseenU
        have hres2 : res = none := hres
        subst hres2
        simp only [hni]
        have hsel1 : st1.selected = st.selected := by
          rw [← (next_item_snd_fields key st).1, hni]
        have hcnt1 : st1.selected_counts = st.selected_counts := by
          rw [← (next_item_snd_fields key st).2.1, hni]
        have huniq1 : st1.unique_sources = st.unique_sources := by
          rw [← (next_item_snd_fields key st).2.2, hni]
        have hinv1 : P1Inv cfg p0 st1 := by
          refine ⟨?_, ?_, ?_, ?_, ?_⟩
          · rw [pendingItems_congr cfg.available_sources st1.pending st.pending
              (fun k _ => hpend k), hseenT, hseenU]
            exact hinv.1
          · rw [hsel1, huniq1]
            exact hinv.2.1
          · rw [huniq1]
            exact hinv.2.2.1
          · intro k hk
            rw [huniq1] at hk
            rw [hcnt1]
            exact hinv.2.2.2.1 k hk
          · intro k hk
            rw [huniq1] at hk
            rw [hpend k]
            exact hinv.2.2.2.2 k hk
        have hfc : (key :: rest).filter
            (fun k => k ∉ st.unique_sources ∧ st.pending k ≠ []) =
            rest.filter (fun k => k ∉ st.unique_sources ∧ st.pending k ≠ []) :=
          List.filter_cons_of_neg (by simp [hpd])
        have hfc2 : rest.filter (fun k => k ∉ st1.unique_sources ∧ st1.pending k ≠ []) =
            rest.filter (fun k => k ∉ st.unique_sources ∧ st.pending k ≠ []) := by
          apply List.filter_congr
          intro k _
          rw [hpend k, huniq1]
        obtain ⟨ihc, ihinv, ihlen⟩ := ih st1 hrestsub hinv1
          (by rw [hsel1, huniq1]; exact hlen) (by rw [huniq1]; exact hle)
        refine ⟨?_, ihinv, ihlen⟩
        rw [hfc]
        rw [hfc2, huniq1] at ihc
        exact ihc
      · have hmemp : item ∈ pendingItems cfg.available_sources st.pending :=
          List.mem_flatMap.mpr ⟨key, hkeymem, by rw [hpd]; exact List.mem_cons_self _ _⟩
        have hitf := hinv.1.1 item hmemp
        obtain ⟨hres, hpk, hpkne, hsT, hsU⟩ :=
          next_item_fresh key st item restitems hpd hitf.1 hitf.2
        rcases hni : next_item key st with ⟨res, st1⟩
        rw [hni] at hres hpk hpkne hsT hsU
        have hres2 : res = some item := hres
        subst hres2
        simp only [hni]
        have hsel1 : st1.selected = st.selected := by
          rw [← (next_item_snd_fields key st).1, hni]
        have hcnt1 : st1.selected_counts = st.selected_counts := by
          rw [← (next_item_snd_fields key st).2.1, hni]
        have huniq1 : st1.unique_sources = st.unique_sources := by
          rw [← (next_item_snd_fields key st).2.2, hni]
        obtain ⟨A1, A2, hAeq⟩ := List.append_of_mem hkeymem
        have hAnd := hA
        rw [hAeq] at hAnd
        rcases List.nodup_append.mp hAnd with ⟨hA1nd, hA2c, hdisj⟩
        have hkA2 : key ∉ A2 := (List.nodup_cons.mp hA2c).1
        have hkA1 : key ∉ A1 := fun hk => hdisj hk (List.mem_cons_self _ _)
        have hold : pendingItems cfg.available_sources st.pending =
            pendingItems A1 st.pending ++
              (item :: (restitems ++ pendingItems A2 st.pending)) := by
          rw [hAeq, pendingItems_decomp, hpd]
          simp
        have hnew : pendingItems cfg.available_sources st1.pending =
            pendingItems A1 st.pending ++ (restitems ++ pendingItems A2 st.pending) := by
          rw [hAeq, pendingItems_decomp, hpk,
            pendingItems_congr A1 st1.pending st.pending
              (fun k hk => hpkne k (fun he => hkA1 (he ▸ hk))),
            pendingItems_congr A2 st1.pending st.pending
              (fun k hk => hpkne k (fun he => hkA2 (he ▸ hk)))]
        have hfresh2 : KeyFresh (pendingItems cfg.available_sources st1.pending)
            st1.seen_titles st1.seen_urls := by
          rw [hnew, hsT, hsU]
          apply keyfresh_consume
          rw [← hold]
          exact hinv.1
        set st2 : SelState :=
          { st1 with
            selected := st1.selected ++ [(key, item)],
            selected_counts := fun k =>
              if k = key then st1.selected_counts k + 1 else st1.selected_counts k,
            unique_sources := st1.unique_sources ++ [key] } with hst2
        have hst2sel : st2.selected = st1.selected ++ [(key, item)] := by rw [hst2]
        have hst2cnt : st2.selected_counts = fun k =>
            if k = key then st1.selected_counts k + 1 else st1.selected_counts k := by
          rw [hst2]
        have hst2un : st2.unique_sources = st1.unique_sources ++ [key] := by rw [hst2]
        have hst2pend : st2.pending = st1.pending := by rw [hst2]
        have hst2seenT : st2.seen_titles = st1.seen_titles := by rw [hst2]
        have hst2seenU : st2.seen_urls = st1.seen_urls := by rw [hst2]
        have hinv2 : P1Inv cfg p0 st2 := by
          refine ⟨?_, ?_, ?_, ?_, ?_⟩
          · rw [hst2pend, hst2seenT, hst2seenU]
            exact hfresh2
          · rw [hst2sel, hst2un]
            simp only [List.map_append, List.map_cons, List.map_nil]
            rw [hsel1, huniq1, hinv.2.1]
          · rw [hst2un, huniq1]
            exact ((List.perm_append_singleton key st.unique_sources).nodup_iff).mpr
              (List.nodup_cons.mpr ⟨hmem, hinv.2.2.1⟩)
          · intro k hk
            rw [hst2un] at hk
            simp only [List.mem_append, List.mem_singleton, not_or] at hk
            simp only [hst2cnt]
            rw [if_neg hk.2, hcnt1]
            exact hinv.2.2.2.1 k (huniq1 ▸ hk.1)
          · intro k hk
            rw [hst2un] at hk
            simp only [List.mem_append, List.mem_singleton, not_or] at hk
            rw [hst2pend, hpkne k hk.2]
            exact hinv.2.2.2.2 k (huniq1 ▸ hk.1)
        have hlen2 : st2.selected.length = st2.unique_sources.length := by
          rw [hst2sel, hst2un]
          simp only [List.length_append, List.length_cons, List.length_nil, hsel1, huniq1]
          omega
        have hle2 : ((st2.unique_sources.length : Int) ≤ cfg.target_unique) := by
          push_neg at hstop
          rw [hst2un]
          simp only [List.length_append, List.length_cons, List.length_nil, huniq1]
          push_cast
          omega
        obtain ⟨ihc, ihinv, ihlen⟩ := ih st2 hrestsub hinv2 hlen2 hle2
        refine ⟨?_, ihinv, ihlen⟩
        rw [List.filter_cons_of_pos (by simp [hmem, hpd])]
        have hfc2 : rest.filter (fun k => k ∉ st2.unique_sources ∧ st2.pending k ≠ []) =
            rest.filter (fun k => k ∉ st.unique_sources ∧ st.pending k ≠ []) := by
          apply List.filter_congr
          intro k hk
          have hkne : k ≠ key := fun he => hkeyrest (he ▸ hk)
          have hp2 : st1.pending k = st.pending k := hpkne k hkne
          simp [hst2pend, hst2un, hp2, huniq1, hkne]
        rw [hfc2] at ihc
        rw [ihc, hst2un, huniq1]
        simp only [List.length_append, List.length_cons, List.length_nil]
        congr 1
        push_cast
        omega

lemma fill_sweep_append (cfg : SelCfg) :
    ∀ (l : List String) (st : SelState),
      ∃ tail, (fill_sweep cfg l st).selected = st.selected ++ tail
  | [], st => ⟨[], by simp [fill_sweep]⟩
  | key :: rest, st => by
    simp only [fill_sweep]
    split_ifs with h1 h2
    · exact ⟨[], by simp⟩
    · exact fill_sweep_append cfg rest st
    · rcases hni : next_item key st with ⟨res, st1⟩
      have hsel1 : st1.selected = st.selected := by
        rw [← (next_item_snd_fields key st).1, hni]
      cases res with
      | none =>
        obtain ⟨tail, htail⟩ := fill_sweep_append cfg rest st1
        exact ⟨tail, by rw [htail, hsel1]⟩
      | some item =>
        obtain ⟨tail, htail⟩ := fill_sweep_append cfg rest
          { st1 with
            selected := st1.selected ++ [(key, item)],
            selected_counts := fun k =>
              if k = key then st1.selected_counts k + 1 else st1.selected_counts k }
        refine ⟨(key, item) :: tail, ?_⟩
        rw [htail]
        simp [hsel1]

lemma phase2_append (cfg : SelCfg) :
    ∀ (fuel : Nat) (st : SelState),
      ∃ tail, (phase2 cfg fuel st).selected = st.selected ++ tail
  | 0, st => ⟨[], by simp [phase2]⟩
  | fuel + 1, st => by
    simp only [phase2]
    split_ifs with h1 h2
    · obtain ⟨t1, ht1⟩ := fill_sweep_append cfg cfg.available_sources st
      obtain ⟨t2, ht2⟩ := phase2_append cfg fuel (fill_sweep cfg cfg.available_sources st)
      exact ⟨t1 ++ t2, by rw [ht2, ht1, List.append_assoc]⟩
    · exact fill_sweep_append cfg cfg.available_sources st
    · exact ⟨[], by simp⟩

lemma phase1_fresh_run (cfg : SelCfg) (p0 : String → List SourceItem) (m : Nat)
    (hA : cfg.available_sources.Nodup)
    (htm : cfg.target_unique ≤ cfg.max_items)
    (hcap : 0 < cfg.cap_eff)
    (hTpos : 0 < cfg.target_unique)
    (hTav : cfg.target_unique ≤ (cfg.available_sources.length : Int))
    (hav : ∀ k ∈ cfg.available_sources, p0 k ≠ [])
    (seenT seenU : List String)
    (hfresh : KeyFresh (pendingItems cfg.available_sources p0) seenT seenU) :
    phase1 cfg (m + 2) (selInit p0 seenT seenU) =
      diversity_sweep cfg cfg.available_sources (selInit p0 seenT seenU) ∧
    (((diversity_sweep cfg cfg.available_sources
        (selInit p0 seenT seenU)).unique_sources.length : Int) = cfg.target_unique) ∧
    (diversity_sweep cfg cfg.available_sources (selInit p0 seenT seenU)).selected.map
      Prod.fst =
      (diversity_sweep cfg cfg.available_sources (selInit p0 seenT seenU)).unique_sources ∧
    (diversity_sweep cfg cfg.available_sources (selInit p0 seenT seenU)).unique_sources.Nodup ∧
    (diversity_sweep cfg cfg.available_sources (selInit p0 seenT seenU)).selected.length =
      (diversity_sweep cfg cfg.available_sources (selInit p0 seenT seenU)).unique_sources.length := by
  have hinvinit : P1Inv cfg p0 (selInit p0 seenT seenU) :=
    ⟨hfresh, rfl, List.nodup_nil, fun k _ => rfl, fun k _ => rfl⟩
  obtain ⟨hcount, hinvA, hlenA⟩ := diversity_sweep_fresh cfg p0 hA htm hcap
    cfg.available_sources (selInit p0 seenT seenU) (List.Sublist.refl _) hinvinit rfl
    (by simp [selInit]; omega)
  have hfilter : cfg.available_sources.filter
      (fun k => k ∉ (selInit p0 seenT seenU).unique_sources ∧
        (selInit p0 seenT seenU).pending k ≠ []) = cfg.available_sources := by
    apply List.filter_eq_self.mpr
    intro k hk
    simp [selInit, hav k hk]
  rw [hfilter] at hcount
  have hzero : (((selInit p0 seenT seenU).unique_sources.length : Nat) : Int) = 0 := rfl
  have hzsel : (((selInit p0 seenT seenU).selected.length : Nat) : Int) = 0 := rfl
  rw [hzero, zero_add, min_eq_left hTav] at hcount
  have huA := hcount
  refine ⟨?_, huA, hinvA.2.1, hinvA.2.2.1, hlenA⟩
  have hc1 : ((selInit p0 seenT seenU).unique_sources.length : Int) < cfg.target_unique ∧
      ((selInit p0 seenT seenU).selected.length : Int) < cfg.max_items := by
    constructor
    · rw [hzero]
      exact hTpos
    · rw [hzsel]
      omega
  have hprog : (selInit p0 seenT seenU).selected.length <
      (diversity_sweep cfg cfg.available_sources (selInit p0 seenT seenU)).selected.length := by
    rw [show (selInit p0 seenT seenU).selected.length = 0 from rfl]
    omega
  have hstop2 : ¬ (((diversity_sweep cfg cfg.available_sources
        (selInit p0 seenT seenU)).unique_sources.length : Int) < cfg.target_unique ∧
      ((diversity_sweep cfg cfg.available_sources
        (selInit p0 seenT seenU)).selected.length : Int) < cfg.max_items) := by
    intro hcon
    omega
  show phase1 cfg (m + 1 + 1) (selInit p0 seenT seenU) = _
  simp only [phase1]
  rw [if_pos hc1, if_pos hprog, if_neg hstop2]

/-- C4 amended: if the sources listed in `source_order` with at least one
item number at least `min_unique_domains`, with pairwise distinct source
keys, `max_items ≥ min_unique_domains`, and the reachable items are fresh
for the session (no nonempty normalized key already seen, no two items
sharing a nonempty normalized key), then the first `min_unique_domains`
selections are pulled from pairwise distinct sources. -/
theorem selector_diversity (items_by_source : String → List SourceItem)
    (source_order : List String)
    (max_items min_unique_domains max_items_per_source : Int)
    (seen_titles seen_urls : List String)
    (hnodup : (source_order.filter (fun k => items_by_source k ≠ [])).Nodup)
    (hfresh : KeyFresh (pendingItems
      (source_order.filter (fun k => items_by_source k ≠ [])) items_by_source)
      seen_titles seen_urls)
    (hmuA : min_unique_domains ≤
      ((source_order.filter (fun k => items_by_source k ≠ [])).length : Int))
    (hmuM : min_unique_domains ≤ max_items) :
    ((((_select_state items_by_source source_order max_items min_unique_domains
        max_items_per_source seen_titles seen_urls).selected).take
        min_unique_domains.toNat).map Prod.fst).Nodup := by
  by_cases hmu : min_unique_domains ≤ 0
  · rw [Int.toNat_of_nonpos hmu]
    simp
  · push_neg at hmu
    have hmaxpos : 0 < max_items := lt_of_lt_of_le hmu hmuM
    have havne : ¬ source_order.filter (fun k => items_by_source k ≠ []) = [] := by
      intro h0
      rw [h0] at hmuA
      simp at hmuA
      omega
    unfold _select_state
    rw [if_neg (by omega : ¬ max_items ≤ 0), if_neg havne]
    set cfg := selMainCfg items_by_source source_order max_items min_unique_domains
      max_items_per_source with hcfg
    have htarget : cfg.target_unique = min_unique_domains := by
      show min (max min_unique_domains 0)
        (min (((source_order.filter (fun k => items_by_source k ≠ [])).length : Int))
          max_items) = min_unique_domains
      rw [max_eq_left (le_of_lt hmu)]
      exact min_eq_left (le_min hmuA hmuM)
    have hcap : 0 < cfg.cap_eff := by
      have hce : cfg.cap_eff =
          if max_items_per_source ≤ 0 then max_items else max_items_per_source := rfl
      rw [hce]
      split_ifs <;> omega
    have htm : cfg.target_unique ≤ cfg.max_items := by
      rw [htarget]
      exact hmuM
    have hTav : cfg.target_unique ≤ ((cfg.available_sources.length : Int)) := by
      rw [htarget]
      exact hmuA
    have hav : ∀ k ∈ cfg.available_sources, items_by_source k ≠ [] := by
      intro k hk
      simpa using (List.mem_filter.mp hk).2
    obtain ⟨m, hm⟩ : ∃ m, max_items.toNat + 1 = m + 2 := ⟨max_items.toNat - 1, by omega⟩
    rw [hm]
    obtain ⟨hrun, huA, hmap, hnd, hlenA⟩ := phase1_fresh_run cfg items_by_source m hnodup
      htm hcap (by rw [htarget]; exact hmu) hTav hav seen_titles seen_urls hfresh
    rw [hrun]
    obtain ⟨tail, htail⟩ := phase2_append cfg (m + 2)
      (diversity_sweep cfg cfg.available_sources
        (selInit items_by_source seen_titles seen_urls))
    rw [htail]
    rw [htarget] at huA
    have hlen : (diversity_sweep cfg cfg.available_sources
        (selInit items_by_source seen_titles seen_urls)).selected.length =
        min_unique_domains.toNat := by
      omega
    rw [List.take_left' hlen, hmap]
    exact hnd

/-- First source of the diversity counterexample: two items, the first
sharing its normalized title with the other source's only item. -/
def dupA1 : SourceItem := { title := "Alpha", url := "http://a.example/1", source := "A" }

/-- Second item of source `a.example`, with a distinct title. -/
def dupA2 : SourceItem := { title := "Beta", url := "http://a.example/2", source := "A" }

/-- Only item of source `b.example`: a cross-source duplicate of `dupA1` by
normalized title. -/
def dupB1 : SourceItem := { title := "Alpha", url := "http://b.example/1", source := "B" }

/-- The two-source input with a cross-source duplicate title. -/
def dupBySource : String → List SourceItem :=
  fun k => if k = "a.example" then [dupA1, dupA2]
    else if k = "b.example" then [dupB1] else []

/-- C4 counterexample: both sources have an available item at input time
(the seen sets are empty), `min_unique_domains = 2 = max_items`, yet the
first two selections both come from `a.example`: selecting `dupA1` marks
its title seen, so the diversity sweep finds nothing fresh at `b.example`,
stops early, and the fill phase takes a second item from `a.example`. -/
theorem selector_diversity_counterexample :
    (["a.example", "b.example"].filter (fun k => dupBySource k ≠ [])) =
      ["a.example", "b.example"] ∧
    ((_select_state dupBySource ["a.example", "b.example"] 2 2 4 [] []).selected.take
      2).map Prod.fst = ["a.example", "a.example"] ∧
    ¬ (((_select_state dupBySource ["a.example", "b.example"] 2 2 4
      [] []).selected.take 2).map Prod.fst).Nodup := by
  refine ⟨by decide, by decide, by decide⟩

/-- One-item source `g.example` for the diversity witness. -/
def divG : SourceItem := { title := "Gamma", url := "http://g.example/1", source := "G" }

/-- One-item source `d.example` for the diversity witness. -/
def divD : SourceItem := { title := "Delta", url := "http://d.example/1", source := "D" }

/-- Two sources with fresh, pairwise distinct keys. -/
def divBySource : String → List SourceItem :=
  fun k => if k = "g.example" then [divG]
    else if k = "d.example" then [divD] else []

/-- C4 witness: the diversity theorem at a concrete fresh two-source input,
with every hypothesis discharged by computation. -/
theorem selector_diversity_witness :
    (["g.example", "d.example"].filter (fun k => divBySource k ≠ [])).Nodup ∧
    KeyFresh (pendingItems
      (["g.example", "d.example"].filter (fun k => divBySource k ≠ [])) divBySource)
      [] [] ∧
    (2 : Int) ≤
      ((["g.example", "d.example"].filter (fun k => divBySource k ≠ [])).length : Int) ∧
    (2 : Int) ≤ (2 : Int) ∧
    ((((_select_state divBySource ["g.example", "d.example"] 2 2 4 [] []).selected).take
      (2 : Int).toNat).map Prod.fst).Nodup :=
  ⟨by decide, by unfold KeyFresh; decide, by decide, by decide,
   selector_diversity divBySource ["g.example", "d.example"] 2 2 4 [] []
     (by decide) (by unfold KeyFresh; decide) (by decide) (by decide)⟩
